import Mathlib

/-!
Verification of the evio library core against its specification.

The development shallowly embeds the parts of the code that the claims
are about:

* `EventLoopThread` (the dispatcher): the wakeup signal handler, the
  per-event closure built in `EventLoopThread::main`, the
  `being_processed_by_pool` dispatch discipline, and the conditional
  start/stop operations `start_if` / `stop_if`.
* `InputDecoder::end_of_msg_finder`: the newline framing function.
* `StreamBuf`: the single-producer / single-consumer linked-block byte
  buffer (`StreamBuf.cxx`), embedded as a state machine whose operations
  are the producer entry points `xsputn_a` / `overflow_a` /
  `update_put_area` and the consumer entry points `xsgetn_a` /
  `underflow_a` / `update_get_area` / `release_memory_block` /
  `pbackfail`.

Machine pointers (`char*`) are modelled as block-id/offset pairs; block
ids are allocation order, so distinct allocations compare unequal, which
is the intended reading of every pointer comparison in the source.
Concurrency is modelled at operation granularity: producer and consumer
operations are serialized in an arbitrary interleaving (each operation
runs atomically).  The memory-ordering annotations of the source select
exactly this semantics for the data; they are not themselves modelled.
-/

namespace Evio

/-! ## List helpers: memory as lists of bytes -/

/-- Write `src` into `l` starting at offset `off` (model of `memcpy` into a
block).  Bytes outside the written range are preserved. -/
def listWrite (l : List Nat) (off : Nat) (src : List Nat) : List Nat :=
  l.take off ++ src ++ l.drop (off + src.length)

/-- The slice `[a, b)` of a list (model of reading a memory range). -/
def listSlice (l : List Nat) (a b : Nat) : List Nat :=
  (l.take b).drop a

/-! ## EventLoopThread: the dispatcher (src/unnamed/part_000)

State and operations of `EventLoopThread` relevant to the claims: the
wakeup signal handler, the per-event thread-pool closure built in
`EventLoopThread::main`, the `being_processed_by_pool` dispatch
discipline, and the conditional start/stop operations. -/

/-- The tri-state terminate flag of the dispatcher. -/
inductive TerminateKind
  | not_yet
  | cleanly
  | forced
deriving DecidableEq, Repr

/-- The dispatcher state read and written by
`EventLoopThread::s_wakeup_handler`: the terminate flag `m_terminate`,
the active-device count `m_active` and the `m_stop_running` flag. -/
structure WakeupState where
  terminate : TerminateKind
  active : Int
  stop_running : Bool
deriving DecidableEq, Repr

/-- `EventLoopThread::s_wakeup_handler` (src/unnamed/part_000, lines 74-82). -/
def s_wakeup_handler (s : WakeupState) : WakeupState :=
  if s.terminate = .forced ∨ (s.terminate = .cleanly ∧ s.active = 0) then
    { s with stop_running := true }
  else
    s

/-- epoll event bits (linux/eventpoll.h). -/
def EPOLLIN : Nat := 1
def EPOLLOUT : Nat := 4
def EPOLLERR : Nat := 8
def EPOLLHUP : Nat := 16

/-- The actions a queued event closure performs on its device, in order. -/
inductive DevAction
  | hup_event
  | exceptional_event
  | read_event
  | write_event
  | close_fd
  | clear_being_processed (mask : Nat)
  | allow_deletion
  | fatal
deriving DecidableEq, Repr

/-- The closure queued by `EventLoopThread::main` for an epoll event with
(reduced) mask `events` (src/unnamed/part_000, lines 175-208), embedded as
the ordered sequence of actions it performs on the device.  The 32-bit
complement `~(EPOLLIN|EPOLLOUT)` is written out as a xor against the full
32-bit mask. -/
def event_closure (events : Nat) : List DevAction :=
  if events &&& (0xFFFFFFFF ^^^ (EPOLLIN ||| EPOLLOUT)) ≠ 0 then
    if events &&& EPOLLHUP ≠ 0 then
      [.hup_event, .close_fd, .clear_being_processed EPOLLHUP, .allow_deletion]
    else if events &&& EPOLLERR ≠ 0 then
      [.exceptional_event, .clear_being_processed EPOLLERR, .allow_deletion]
    else
      [.fatal]
  else
    ((if events &&& EPOLLIN ≠ 0 then
        [DevAction.read_event, DevAction.clear_being_processed EPOLLIN]
      else []) ++
     (if events &&& EPOLLOUT ≠ 0 then
        [DevAction.write_event, DevAction.clear_being_processed EPOLLOUT]
      else [])) ++ [.allow_deletion]

/-- Bitwise and-not (`x & ~mask` of the source, on untruncated naturals). -/
def andNot (x mask : Nat) : Nat :=
  Nat.bitwise (fun a b => a && !b) x mask

/-- The state of the dispatch discipline for one device: its
`being_processed_by_pool` bitmask together with the masks held by the
closures currently queued or running in the thread pool. -/
structure DispatchState where
  being_processed_by_pool : Nat
  workers : List Nat
deriving DecidableEq, Repr

/-- One step of the dispatcher / worker system around
`EventLoopThread::main` (src/unnamed/part_000, lines 143-154).

`dispatch events`: the event thread receives an epoll event mask,
atomically test-and-sets those bits in `being_processed_by_pool`
(`test_and_set_being_processed_by_thread_pool`; its body lives in
FileDescriptor.h which is not among the sources — modelled from the spec:
"atomically test-and-set, on the device, the bits in
`being_processed_by_pool` equal to the event mask", i.e. a fetch-or
returning the previously owned bits), keeps only the bits the atomic did
not already own (`event.events &= ~already`), and queues a closure for
them when any remain.

`finish`: a running closure clears some of the bits it owns
(`clear_being_processed_by_thread_pool`), both in the shared mask and in
its own. -/
inductive DStep : DispatchState → DispatchState → Prop
  | dispatch (s : DispatchState) (events : Nat) :
      DStep s
        { being_processed_by_pool := s.being_processed_by_pool ||| events
          workers :=
            if andNot events s.being_processed_by_pool ≠ 0 then
              andNot events s.being_processed_by_pool :: s.workers
            else s.workers }
  | finish (s : DispatchState) (i : Nat) (hi : i < s.workers.length) (mask : Nat)
      (hown : mask &&& s.workers[i] = mask) :
      DStep s
        { being_processed_by_pool := andNot s.being_processed_by_pool mask
          workers := s.workers.set i (andNot s.workers[i] mask) }

/-- A dispatch state reachable from the idle state (no bits owned, no
closures in flight). -/
def DReachable (s : DispatchState) : Prop :=
  Relation.ReflTransGen DStep ⟨0, []⟩ s

/-- The inductive invariant of the dispatch system: every in-flight
closure owns only bits currently set in `being_processed_by_pool`, and
the masks of the in-flight closures are pairwise disjoint. -/
def DInv (s : DispatchState) : Prop :=
  (∀ j, (hj : j < s.workers.length) →
      andNot s.workers[j] s.being_processed_by_pool = 0) ∧
  (∀ j k, (hj : j < s.workers.length) → (hk : k < s.workers.length) →
      j ≠ k → s.workers[j] &&& s.workers[k] = 0)

/-! ## EventLoopThread::start_if / stop_if (src/unnamed/part_000) -/

/-- utils::FuzzyBool.  The utils library is not among the sources;
modelled from the spec ("Fuzzy conditions (`momentary_true`,
`transitory_true`, `is_false`) express the optimistic / must-hold
distinction for enabling a device"): the four truth values of a predicate
evaluated outside the lock. -/
inductive FuzzyBool
  | fTrue
  | fWasTrue
  | fWasFalse
  | fFalse
deriving DecidableEq, Repr

/-- `FuzzyBool::is_momentary_false`. -/
def is_momentary_false (b : FuzzyBool) : Bool :=
  b = .fFalse ∨ b = .fWasFalse

/-- A FuzzyCondition, modelled as the cached value tested outside the
lock together with the value `condition()` re-evaluates to under the
state lock. -/
structure FuzzyCondition where
  cached : FuzzyBool
  reeval : FuzzyBool
deriving DecidableEq, Repr

/-- The per-direction device state touched by `EventLoopThread::start_if`
and `stop_if`: the `FileDescriptorFlags` bits for the given
`active_flag` direction (their accessors live in FileDescriptor.h, which
is not among the sources — modelled from the spec: "set `active` bit; if
this fd has not yet been added to the poller, set `added` ...,
incrementing the device's refcount"), the dispatcher's active count, the
device's refcount, and whether the fd is being watched by the poller. -/
structure ELTDevState where
  active : Bool
  added : Bool
  disabled : Bool
  inferior : Bool
  regular_file : Bool
  m_active : Int
  refcount : Int
  watching : Bool
deriving DecidableEq, Repr

/-- Tail of `EventLoopThread::start_if` after the conditional re-test
succeeded (src/unnamed/part_000, lines 506-530). -/
def start_commit (s : ELTDevState) : ELTDevState × Bool :=
  let needs_adding := !s.added
  let s := { s with added := true }
  let s := if !s.inferior then { s with m_active := s.m_active + 1 } else s
  let s :=
    if !s.regular_file then
      let s := if needs_adding then { s with refcount := s.refcount + 1 } else s
      { s with watching := true }
    else
      s   -- handle_regular_file: queue a read/write closure on the pool
  (s, true)

/-- `EventLoopThread::start_if` (src/unnamed/part_000, lines 449-531).
The debug-only ASSERT on `is_transitory_false` is omitted (the caller
contract excludes it). -/
def start_if (s : ELTDevState) (condition : FuzzyCondition) : ELTDevState × Bool :=
  if condition.cached = .fFalse then (s, false)
  else if s.disabled then (s, true)
  else if s.active then (s, true)   -- !test_and_set_active: already active
  else
    let s1 := { s with active := true }
    if condition.cached = .fWasTrue then   -- is_transitory_true
      if is_momentary_false condition.reeval then
        ({ s1 with active := false }, false)
      else
        start_commit s1
    else
      start_commit s1

/-- Tail of `EventLoopThread::stop_if` after the conditional re-test
succeeded (src/unnamed/part_000, lines 609-620). -/
def stop_commit (s : ELTDevState) : ELTDevState × Bool :=
  let s := if !s.regular_file then { s with watching := false } else s
  let s := if !s.inferior then { s with m_active := s.m_active - 1 } else s
  (s, true)

/-- `EventLoopThread::stop_if` (src/unnamed/part_000, lines 574-621). -/
def stop_if (s : ELTDevState) (condition : FuzzyCondition) : ELTDevState × Bool :=
  if condition.cached = .fFalse then (s, false)
  else if !s.active then (s, true)   -- !test_and_clear_active: already non-active
  else
    let s1 := { s with active := false }
    if condition.cached = .fWasTrue then   -- is_transitory_true
      if is_momentary_false condition.reeval then
        ({ s1 with active := true }, false)   -- revert the clear
      else
        stop_commit s1
    else
      stop_commit s1

/-! ## InputDecoder::end_of_msg_finder (src/InputDecoder.h) -/

/-- `InputDecoder::end_of_msg_finder` (src/InputDecoder.h, lines 78-82):
`memchr(new_data, newline, rlen)`, returning one past the index of the
first newline among the first `rlen` bytes, or 0 when there is none. -/
def end_of_msg_finder (new_data : List Nat) (rlen : Nat) : Nat :=
  match (new_data.take rlen).findIdx? (· = 10) with
  | some i => i + 1
  | none => 0

/-! ## StreamBuf (src/StreamBuf.cxx, src/StreamBuf.h)

The SPSC linked-block byte buffer.  The claims cite StreamBuf.cxx, which
uses the `m_next_egptr` / `m_next_egptr2` handshake (`m_next_egptr =
nullptr` signals a pending reset); the StreamBuf.h in the sources is a
later revision using `m_last_pptr` / `m_resetting`, so the producer-side
publish function `sync_egptr` of the cxx protocol is modelled from the
spec (see `sync_egptr` below).  Machine pointers are (allocation id,
offset) pairs; `m_next` links are represented by adjacency in the chain
list, whose head is `m_get_area_block_node` and whose last element is
`m_put_area_block_node`. -/

/-- A pointer into block memory: the allocation number of the block and a
byte offset within its payload. -/
structure Ptr where
  blk : Nat
  off : Nat
deriving DecidableEq, Repr

/-- A `MemoryBlock` (StreamBuf.h lines 110-192): its allocation number
(standing for the address), its `m_block_size`, and the payload bytes. -/
structure MemBlock where
  id : Nat
  blockSize : Nat
  data : List Nat
deriving DecidableEq, Repr, Inhabited

/-- `sizeof(MemoryBlock)`: the header in front of the payload. -/
def sizeofMemoryBlock : Nat := 32

/-- Modelled from the spec: `utils::malloc_size` (the utils library is
not among the sources).  The spec says block sizes are pre-rounded to the
allocator's chunk granularity ("The caller must pass a size pre-rounded
to the allocator's chunk granularity"), so the rounding is modelled as
the identity. -/
def malloc_size (n : Nat) : Nat := n

/-- Modelled from the spec: `utils::max_malloc_size`, the largest
allocator-chunk size not above `n`; the identity under the same
convention. -/
def max_malloc_size (n : Nat) : Nat := n

/-- The complete state of a `StreamBuf`: the live block chain, the
`std::streambuf` put and get areas, the transfer atomics and the four
monotone counters.  `m_next_egptr = none` encodes the nullptr (pending
reset) state; `m_last_gptr = none` its initial nullptr. -/
structure SB where
  blocks : List MemBlock
  pbase : Ptr
  pptr : Ptr
  epptr : Ptr
  eback : Ptr
  gptr : Ptr
  egptr : Ptr
  m_next_egptr : Option Ptr
  m_next_egptr2 : Ptr
  m_last_gptr : Option Ptr
  m_total_allocated : Nat
  m_total_freed : Nat
  m_total_read : Nat
  m_total_reset : Nat
  m_minimum_block_size : Nat
  m_max_allocated_block_size : Nat
  nextId : Nat
deriving DecidableEq, Repr

/-- `StreamBufProducer::unused_in_last_block` (StreamBuf.h line 633). -/
def unused_in_last_block (sb : SB) : Nat := sb.epptr.off - sb.pptr.off

/-- `StreamBufProducer::get_allocated_upper_bound` (StreamBuf.h line
636).  `m_total_freed ≤ m_total_allocated` in every reachable state, so
natural subtraction agrees with the source's arithmetic. -/
def get_allocated_upper_bound (sb : SB) : Nat :=
  sb.m_total_allocated - sb.m_total_freed

/-- `StreamBufProducer::get_data_size_upper_bound` (StreamBuf.h line
642).  Non-negative in every reachable state. -/
def get_data_size_upper_bound (sb : SB) : Nat :=
  sb.m_total_allocated - unused_in_last_block sb + sb.m_total_reset -
    sb.m_total_read

/-- `StreamBufProducer::new_block_size` (StreamBuf.cxx lines 110-114). -/
def new_block_size (sb : SB) : Nat :=
  malloc_size (max (get_data_size_upper_bound sb) sb.m_minimum_block_size +
    sizeofMemoryBlock) - sizeofMemoryBlock

/-- `StreamBufProducer::create_memory_block` (StreamBuf.cxx lines
116-129): allocate a block and add its size to `m_total_allocated`.
Fresh allocations get fresh ids; malloc'd payload bytes start
indeterminate (all zeros in the model; they are never read before being
written). -/
def create_memory_block (sb : SB) (block_size : Nat) : SB × MemBlock :=
  let nb : MemBlock := ⟨sb.nextId, block_size, List.replicate block_size 0⟩
  ({ sb with
      m_total_allocated := sb.m_total_allocated + block_size
      nextId := sb.nextId + 1 }, nb)

/-- Modelled from the spec: the producer-side `sync_egptr` of the
`m_next_egptr` protocol used by StreamBuf.cxx (it is declared in the
header revision that cxx file belongs to, which is not among the
sources).  Per the spec, `sync_egptr` "publishes the current `pptr` into
`last_pptr`", and "While `resetting` is true, the producer does not
advance `last_pptr`": the auxiliary `m_next_egptr2` always receives the
new cursor, while `m_next_egptr` is updated only when it is not the
nullptr reset signal — exactly the behaviour the CAS comment in
`update_get_area` (StreamBuf.cxx lines 268-277) relies on. -/
def sync_egptr (sb : SB) (cur_pptr : Ptr) : SB :=
  let sb := { sb with m_next_egptr2 := cur_pptr }
  if sb.m_next_egptr ≠ none then { sb with m_next_egptr := some cur_pptr }
  else sb

/-- `StreamBufProducer::pbump` (StreamBuf.h lines 547-551): advance
`pptr`, then publish it. -/
def producer_pbump (sb : SB) (n : Nat) : SB :=
  let sb := { sb with pptr := ⟨sb.pptr.blk, sb.pptr.off + n⟩ }
  sync_egptr sb sb.pptr

/-- `StreamBufProducer::setp` (StreamBuf.h lines 553-557). -/
def producer_setp (sb : SB) (p ep : Ptr) : SB :=
  let sb := sync_egptr sb p
  { sb with pbase := p, pptr := p, epptr := ep }

/-- `StreamBufProducer::setp_pbump` (StreamBuf.h lines 558-563). -/
def setp_pbump (sb : SB) (p ep : Ptr) (n : Nat) : SB :=
  let sb := sync_egptr sb ⟨p.blk, p.off + n⟩
  { sb with pbase := p, pptr := ⟨p.blk, p.off + n⟩, epptr := ep }

/-- `StreamBufConsumer::store_last_gptr` (StreamBuf.h lines 732-744). -/
def store_last_gptr (sb : SB) (p : Ptr) : SB :=
  { sb with m_last_gptr := some p }

/-- `StreamBufConsumer::setg` (plain `std::streambuf::setg`). -/
def consumer_setg (sb : SB) (eb g eg : Ptr) : SB :=
  { sb with eback := eb, gptr := g, egptr := eg }

/-- `StreamBufConsumer::gbump` (plain `std::streambuf::gbump`). -/
def consumer_gbump (sb : SB) (n : Nat) : SB :=
  { sb with gptr := ⟨sb.gptr.blk, sb.gptr.off + n⟩ }

/-- Write `src` into the chain through pointer `p` (the `memcpy` of
`xsputn_a`, the `*start = c` of `overflow_a`): the bytes land in the
block whose allocation `p` points into. -/
def blocksWrite (blocks : List MemBlock) (p : Ptr) (src : List Nat) :
    List MemBlock :=
  blocks.map fun b =>
    if b.id = p.blk then { b with data := listWrite b.data p.off src } else b

/-- Write through a pointer at the whole-buffer level. -/
def write_through (sb : SB) (p : Ptr) (src : List Nat) : SB :=
  { sb with blocks := blocksWrite sb.blocks p src }

/-- Read `len` bytes from the chain through pointer `p` (the `memcpy` of
`xsgetn_a`). -/
def blocksRead (blocks : List MemBlock) (p : Ptr) (len : Nat) : List Nat :=
  match blocks.find? (fun b => b.id == p.blk) with
  | some b => listSlice b.data p.off (p.off + len)
  | none => []

/-- `StreamBufProducer::update_put_area` (StreamBuf.cxx lines 499-535):
when (a) the put cursor is not at the block start, (b) the reset
handshake is idle (`m_next_egptr != nullptr`) and (c) the consumer
reported it has read everything up to the put cursor
(`cur_pptr == m_last_gptr`), start a reset cycle: publish the reset
target in `m_next_egptr2`, signal the consumer by storing nullptr into
`m_next_egptr`, add the reclaimed span to `m_total_reset` and rewind
`pptr` to the block start.  Returns the state, the current `pptr` and the
contiguous space `available` in front of it. -/
def update_put_area (sb : SB) : SB × Ptr × Nat :=
  let block_start := sb.pbase
  let cur_pptr := sb.pptr
  if cur_pptr ≠ block_start ∧ sb.m_next_egptr ≠ none ∧
      sb.m_last_gptr = some cur_pptr then
    let sb := { sb with m_next_egptr2 := block_start }
    let sb := { sb with m_next_egptr := none }
    let sb := { sb with
      m_total_reset := sb.m_total_reset + (cur_pptr.off - block_start.off) }
    let sb := { sb with pptr := block_start }
    (sb, block_start, sb.epptr.off - block_start.off)
  else
    (sb, cur_pptr, sb.epptr.off - cur_pptr.off)

/-- The new-block sizing of `overflow_a` / `xsputn_a` (StreamBuf.cxx
lines 145-151 and 565-571): clamp the size when the allocation limit
would be exceeded; `none` when even the minimum block does not fit (the
EOF path).  The source's `m_max_allocated_block_size -
get_allocated_upper_bound()` is a `size_t` subtraction; natural
subtraction agrees with it whenever the allocated amount is within the
limit, which the theorems below assume or establish. -/
def clamped_block_size (sb : SB) : Option Nat :=
  let block_size := new_block_size sb
  if get_allocated_upper_bound sb + block_size >
      sb.m_max_allocated_block_size then
    let block_size :=
      max_malloc_size (sb.m_max_allocated_block_size -
        get_allocated_upper_bound sb + sizeofMemoryBlock) - sizeofMemoryBlock
    if block_size < sb.m_minimum_block_size then none
    else some block_size
  else some block_size

/-- Create and install a new put block as in `xsputn_a` (StreamBuf.cxx
lines 572-580): allocate, link it behind the current put block
(`m_put_area_block_node->m_next = new_block`) and switch the put area to
it (`setp`, which publishes the new cursor; then the put block pointer
moves). -/
def install_new_block (sb : SB) (block_size : Nat) : SB :=
  let (sb, nb) := create_memory_block sb block_size
  let sb := { sb with blocks := sb.blocks ++ [nb] }
  producer_setp sb ⟨nb.id, 0⟩ ⟨nb.id, block_size⟩

/-- `EOF` of `std::char_traits<char>`. -/
def EOF : Int := -1

/-- `StreamBufProducer::overflow_a` (StreamBuf.cxx lines 131-173).
Returns the new state, the `int_type` result (0, or EOF when the buffer
is full) and the number of bytes written (0 or 1). -/
def overflow_a (sb : SB) (c : Int) : SB × Int × Nat :=
  if c = EOF then (sb, 0, 0)
  else
    let byte := (c % 256).toNat
    match update_put_area sb with
    | (sb, cur_pptr, available) =>
      if available = 0 then
        match clamped_block_size sb with
        | none => (sb, EOF, 0)
        | some block_size =>
          let (sb, nb) := create_memory_block sb block_size
          -- *start = c: write data before calling setp_pbump
          let nb := { nb with data := listWrite nb.data 0 [byte] }
          let sb := { sb with blocks := sb.blocks ++ [nb] }
          let sb := setp_pbump sb ⟨nb.id, 0⟩ ⟨nb.id, block_size⟩ 1
          (sb, 0, 1)
      else
        let sb := write_through sb cur_pptr [byte]
        let sb := producer_pbump sb 1
        (sb, 0, 1)

/-- The loop of `StreamBufProducer::xsputn_a` (StreamBuf.cxx lines
543-583), with explicit fuel (the returned `none` means the fuel ran
out, which cannot happen from well-formed states with the fuel
`xsputn_a` supplies).  Returns the final state, the `streamsize` result
(the number of copied bytes, or EOF on BufferFull) and the number of
bytes actually copied into the buffer. -/
def xsputn_loop : Nat → SB → List Nat → Nat → Option (SB × Int × Nat)
  | 0, _, _, _ => none
  | fuel + 1, sb, s, copied =>
    if s.isEmpty then some (sb, (copied : Int), copied)
    else
      match update_put_area sb with
      | (sb, cur_pptr, available) =>
        let len := min available s.length
        let sb :=
          if 0 < available then
            producer_pbump (write_through sb cur_pptr (s.take len)) len
          else sb
        let s' := if 0 < available then s.drop len else s
        let copied := if 0 < available then copied + len else copied
        if s'.isEmpty then some (sb, (copied : Int), copied)
        else
          match clamped_block_size sb with
          | none => some (sb, EOF, copied)
          | some block_size =>
            xsputn_loop fuel (install_new_block sb block_size) s' copied

/-- `StreamBufProducer::xsputn_a` (StreamBuf.cxx lines 537-589). -/
def xsputn_a (sb : SB) (s : List Nat) : Option (SB × Int × Nat) :=
  xsputn_loop (2 * s.length + 2) sb s 0

/-- `StreamBufConsumer::release_memory_block` (StreamBuf.cxx lines
176-194): advance the get-area chain to the next block, update
`m_last_gptr` to the start of the new block before freeing, add the freed
size to `m_total_freed` and release the old block.  `none` when there is
no next block (the source would dereference a null `m_next`). -/
def release_memory_block (sb : SB) : Option (SB × Ptr) :=
  match sb.blocks with
  | b :: nb :: rest =>
    let start : Ptr := ⟨nb.id, 0⟩
    let sb := { sb with blocks := nb :: rest }
    let sb := store_last_gptr sb start
    let sb := { sb with m_total_freed := sb.m_total_freed + b.blockSize }
    some (sb, start)
  | _ => none

/-- The case-1 / case-2 loop of `StreamBufConsumer::update_get_area`
(StreamBuf.cxx lines 295-342), with fuel (the source's loop body runs at
most twice; `blocks.length + 1` always suffices).  Arguments: the state,
the local `cur_gptr` and the local `next_egptr`.  Returns the state (get
area updated through `setg`), `cur_gptr`, `available`, and the "egptr at
block end with a next block" flag the function returns. -/
def uga_loop : Nat → SB → Ptr → Ptr → Option (SB × Ptr × Nat × Bool)
  | 0, _, _, _ => none
  | fuel + 1, sb, cur_gptr, next_egptr =>
    match sb.blocks with
    | [] => none
    | blk :: rest =>
      let start : Ptr := ⟨blk.id, 0⟩
      let endOff := blk.blockSize
      let case1 : Bool :=
        decide (next_egptr.blk = blk.id ∧ next_egptr.off ≤ endOff)
      let cur_egptr_off := if case1 then next_egptr.off else endOff
      let available := cur_egptr_off - cur_gptr.off
      if available ≠ 0 then
        some (consumer_setg sb start cur_gptr ⟨blk.id, cur_egptr_off⟩,
          cur_gptr, available, decide (cur_egptr_off = endOff) && !case1)
      else if case1 then
        -- update the get area and return false: there is no next block
        some (consumer_setg sb start cur_gptr ⟨blk.id, cur_egptr_off⟩,
          cur_gptr, available, false)
      else
        match rest with
        | [] => none   -- ASSERT(get_area_block_node->m_next) fails
        | nb :: rest' =>
          -- advance the get area to the next MemoryBlock (lines 321-335)
          let cur_gptr : Ptr := ⟨nb.id, 0⟩
          let sb := { sb with blocks := nb :: rest' }
          let sb := store_last_gptr sb cur_gptr
          let sb := { sb with
            m_total_freed := sb.m_total_freed + blk.blockSize }
          uga_loop fuel sb cur_gptr next_egptr

/-- `StreamBufConsumer::update_get_area` (StreamBuf.cxx lines 213-351). -/
def update_get_area (sb : SB) : Option (SB × Ptr × Nat × Bool) :=
  match sb.blocks with
  | [] => none
  | blk :: _ =>
    let start : Ptr := ⟨blk.id, 0⟩
    let cur_gptr := sb.gptr
    match sb.m_next_egptr with
    | none =>
      -- case 3 (lines 251-280): reset the get area.
      let sb := { sb with m_last_gptr := some start }
      let sb := { sb with m_next_egptr := some start }
      -- the CAS loop against m_next_egptr2: operations being serialized,
      -- it succeeds on its first iteration with the latest m_next_egptr2
      let next_egptr := sb.m_next_egptr2
      let sb := { sb with m_next_egptr := some next_egptr }
      uga_loop (sb.blocks.length + 1) sb start next_egptr
    | some next_egptr =>
      uga_loop (sb.blocks.length + 1) sb cur_gptr next_egptr

/-- `StreamBufConsumer::underflow_a` (StreamBuf.cxx lines 354-378). -/
def underflow_a (sb : SB) : Option (SB × Int) :=
  match update_get_area sb with
  | none => none
  | some (sb, cur_gptr, available, _) =>
    if available = 0 then some (store_last_gptr sb cur_gptr, EOF)
    else some (sb, 0)

/-- The loop of `StreamBufConsumer::xsgetn_a` (StreamBuf.cxx lines
430-481), with fuel; accumulates the bytes read. -/
def xsgetn_loop : Nat → SB → Nat → List Nat → Option (SB × List Nat)
  | 0, _, _, _ => none
  | fuel + 1, sb, remaining, acc =>
    if remaining = 0 then some (sb, acc)
    else
      match update_get_area sb with
      | none => none
      | some (sb, cur_gptr, available, at_end_and_has_next_block) =>
        let len := if available ≠ 0 then min available remaining else 0
        let bytes := blocksRead sb.blocks cur_gptr len
        let sb := if available ≠ 0 then consumer_gbump sb len else sb
        let acc := acc ++ bytes
        let remaining := remaining - len
        let available := available - len
        if !at_end_and_has_next_block then
          -- leave if egptr is away from the block end or there is no
          -- next block; on an empty buffer store the read position
          let sb :=
            if available = 0 then
              store_last_gptr sb ⟨cur_gptr.blk, cur_gptr.off + len⟩
            else sb
          some (sb, acc)
        else if available = 0 then
          -- advance the get area to the next MemoryBlock (lines 461-480)
          match sb.blocks with
          | blk :: nb :: rest =>
            let start : Ptr := ⟨nb.id, 0⟩
            let sb := { sb with blocks := nb :: rest }
            let sb := consumer_setg sb start start start
            let sb := store_last_gptr sb start
            let sb := { sb with
              m_total_freed := sb.m_total_freed + blk.blockSize }
            xsgetn_loop fuel sb remaining acc
          | _ => none
        else
          xsgetn_loop fuel sb remaining acc

/-- `StreamBufConsumer::xsgetn_a` (StreamBuf.cxx lines 421-495): read up
to `n` bytes; at the end `m_total_read` is advanced by `n - remaining`,
the number of bytes read.  Returns the state and the bytes read. -/
def xsgetn_a (sb : SB) (n : Nat) : Option (SB × List Nat) :=
  match xsgetn_loop (n + sb.blocks.length + 2) sb n [] with
  | none => none
  | some (sb, out) =>
    some ({ sb with m_total_read := sb.m_total_read + out.length }, out)

/-- The observable outcome of `StreamBufProducer::pbackfail`: either the
fatal abort (`DoutFatal(dc::fatal, ...)`, an InvariantViolation) or a
returned `int_type`. -/
inductive PbackResult
  | fatal_abort
  | returns (r : Int)
deriving DecidableEq, Repr

/-- `StreamBufProducer::pbackfail` (StreamBuf.cxx lines 397-409). -/
def pbackfail (sb : SB) (c : Int) : PbackResult × SB :=
  if c = EOF then (.returns 0, sb)
  else (.fatal_abort, sb)

/-- The `StreamBuf` constructor (StreamBuf.cxx lines 75-107): create the
first memory block and point both areas at it.  `m_next_egptr` starts as
the non-null sentinel `s_next_egptr_init`, so the constructor's `setp`
publishes the initial cursor; `m_last_gptr` starts as nullptr. -/
def mkStreamBuf (minimum_block_size buffer_full_watermark
    max_allocated_block_size : Nat) : SB :=
  let _ := buffer_full_watermark   -- kept by StreamBufProducer; unused here
  let block_size :=
    malloc_size (minimum_block_size + sizeofMemoryBlock) - sizeofMemoryBlock
  let sb0 : SB :=
    { blocks := []
      pbase := ⟨0, 0⟩, pptr := ⟨0, 0⟩, epptr := ⟨0, 0⟩
      eback := ⟨0, 0⟩, gptr := ⟨0, 0⟩, egptr := ⟨0, 0⟩
      m_next_egptr := some ⟨0, 0⟩   -- the s_next_egptr_init sentinel
      m_next_egptr2 := ⟨0, 0⟩
      m_last_gptr := none
      m_total_allocated := 0, m_total_freed := 0
      m_total_read := 0, m_total_reset := 0
      m_minimum_block_size := minimum_block_size
      m_max_allocated_block_size := max_allocated_block_size
      nextId := 0 }
  let (sb1, b) := create_memory_block sb0 block_size
  let sb2 := { sb1 with blocks := [b] }
  let sb3 := producer_setp sb2 ⟨b.id, 0⟩ ⟨b.id, block_size⟩
  consumer_setg sb3 ⟨b.id, 0⟩ ⟨b.id, 0⟩ ⟨b.id, 0⟩

/-- A producer or consumer operation of the buffer machine. -/
inductive SBOp
  | write (s : List Nat)    -- StreamBufProducer::xsputn_a
  | write_char (c : Int)    -- StreamBufProducer::overflow_a
  | read (n : Nat)          -- StreamBufConsumer::xsgetn_a
  | poll                    -- StreamBufConsumer::underflow_a
deriving DecidableEq, Repr

/-- Run one operation.  Returns the state, the bytes the producer copied
into the buffer and the bytes the consumer read out of it. -/
def sb_step (sb : SB) : SBOp → Option (SB × List Nat × List Nat)
  | .write s =>
    match xsputn_a sb s with
    | none => none
    | some (sb, _r, copied) => some (sb, s.take copied, [])
  | .write_char c =>
    match overflow_a sb c with
    | (sb, _r, copied) =>
      some (sb, if copied = 1 then [(c % 256).toNat] else [], [])
  | .read n =>
    match xsgetn_a sb n with
    | none => none
    | some (sb, out) => some (sb, [], out)
  | .poll =>
    match underflow_a sb with
    | none => none
    | some (sb, _r) => some (sb, [], [])

/-- Run a list of operations, concatenating all bytes written into and
read from the buffer. -/
def sb_run : SB → List SBOp → Option (SB × List Nat × List Nat)
  | sb, [] => some (sb, [], [])
  | sb, op :: ops =>
    match sb_step sb op with
    | none => none
    | some (sb, w, r) =>
      match sb_run sb ops with
      | none => none
      | some (sb', ws, rs) => some (sb', w ++ ws, r ++ rs)

/-- The sum of the block sizes of a chain. -/
def sumSizes (bs : List MemBlock) : Nat := (bs.map (fun b => b.blockSize)).sum

/-- The bytes of the chain from offset `gOff` of the head block up to the
pointer `p` (which points into the last block). -/
def chain_data : List MemBlock → Nat → Ptr → List Nat
  | [], _, _ => []
  | b :: rest, gOff, p =>
    if p.blk = b.id then listSlice b.data gOff p.off
    else listSlice b.data gOff b.blockSize ++ chain_data rest 0 p

/-- The unread bytes currently in the buffer, in stream order: from the
effective read position — the reset target while a reset cycle is
pending, otherwise `gptr` — up to the put cursor. -/
def buffer_bytes (sb : SB) : List Nat :=
  chain_data sb.blocks
    (if sb.m_next_egptr = none then 0 else sb.gptr.off) sb.pptr

/-- The inductive invariant of reachable buffer states. -/
structure SBInv (sb : SB) : Prop where
  min_pos : 0 < sb.m_minimum_block_size
  size_pos : ∀ b ∈ sb.blocks, 0 < b.blockSize
  data_len : ∀ b ∈ sb.blocks, b.data.length = b.blockSize
  ids_pw : sb.blocks.Pairwise (fun a b => a.id < b.id)
  ids_lt : ∀ b ∈ sb.blocks, b.id < sb.nextId
  put_area : ∃ lb, sb.blocks.getLast? = some lb ∧ sb.pptr.blk = lb.id ∧
    sb.pptr.off ≤ lb.blockSize ∧ sb.pbase = ⟨lb.id, 0⟩ ∧
    sb.epptr = ⟨lb.id, lb.blockSize⟩
  get_area : ∃ hb, sb.blocks.head? = some hb ∧ sb.gptr.blk = hb.id ∧
    sb.gptr.off ≤ hb.blockSize
  sync2 : sb.m_next_egptr2 = sb.pptr
  syncA : ∀ p, sb.m_next_egptr = some p → p = sb.pptr
  orderA : sb.m_next_egptr ≠ none → sb.gptr.blk = sb.pptr.blk →
    sb.gptr.off ≤ sb.pptr.off
  lastg_blk : ∀ l, sb.m_last_gptr = some l → l.blk ≤ sb.gptr.blk
  lastg_off : ∀ l, sb.m_last_gptr = some l → l.blk = sb.gptr.blk →
    l.off ≤ sb.gptr.off
  alloc_eq : sb.m_total_allocated = sb.m_total_freed + sumSizes sb.blocks
  count_eq : sb.m_total_allocated + sb.m_total_reset =
    sb.m_total_read + (buffer_bytes sb).length + unused_in_last_block sb

/-! # Theorems -/

/-! ## List helper lemmas -/

theorem listWrite_length (l : List Nat) (off : Nat) (src : List Nat)
    (h : off + src.length ≤ l.length) :
    (listWrite l off src).length = l.length := by
  simp only [listWrite, List.length_append, List.length_take, List.length_drop]
  omega

theorem listSlice_self (l : List Nat) (a : Nat) : listSlice l a a = [] := by
  simp [listSlice]

theorem listSlice_len (l : List Nat) (a b : Nat) :
    (listSlice l a b).length = min b l.length - a := by
  simp [listSlice]

/-- Writing at `off` then slicing `[g, off + |src|)` yields the old slice
`[g, off)` followed by `src` — the basic fact behind FIFO order. -/
theorem listSlice_write (l : List Nat) (off : Nat) (src : List Nat) (g : Nat)
    (hg : g ≤ off) (hoff : off ≤ l.length) :
    listSlice (listWrite l off src) g (off + src.length) =
      listSlice l g off ++ src := by
  unfold listWrite listSlice
  have hlen : (l.take off).length = off := by
    simp [List.length_take]; omega
  have hlen2 : (l.take off ++ src).length = off + src.length := by
    simp [hlen]
  rw [List.take_append_eq_append_take, hlen2, Nat.sub_self]
  simp only [List.take_zero, List.append_nil]
  rw [List.take_of_length_le (le_of_eq hlen2)]
  rw [List.drop_append_eq_append_drop, hlen]
  have h4 : g - off = 0 := by omega
  rw [h4]
  simp only [List.drop_zero]

/-- A write at offset `off` does not disturb the slice `[a, b)` when
`b ≤ off` (the already-read/written region before the cursor). -/
theorem listSlice_write_untouched (l : List Nat) (off : Nat) (src : List Nat)
    (a b : Nat) (hb : b ≤ off) (hbl : b ≤ l.length) :
    listSlice (listWrite l off src) a b = listSlice l a b := by
  unfold listWrite listSlice
  rw [List.take_append_eq_append_take]
  have h0 : b - (l.take off ++ src).length = 0 := by
    simp only [List.length_append, List.length_take]; omega
  rw [h0]
  simp only [List.take_zero, List.append_nil]
  rw [List.take_append_eq_append_take]
  have h1 : b - (l.take off).length = 0 := by
    simp only [List.length_take]; omega
  rw [h1]
  simp only [List.take_zero, List.append_nil]
  rw [List.take_take]
  have h2 : min b off = b := by omega
  rw [h2]

theorem listSlice_take (l : List Nat) (a b k : Nat) (h : a + k ≤ b) :
    (listSlice l a b).take k = listSlice l a (a + k) := by
  unfold listSlice
  rw [List.take_drop, List.take_take]
  have : min (a + k) b = a + k := by omega
  rw [this]

theorem listSlice_drop (l : List Nat) (a b k : Nat) :
    (listSlice l a b).drop k = listSlice l (a + k) b := by
  unfold listSlice
  rw [List.drop_drop]

theorem listSlice_append (l : List Nat) (a b c : Nat) (hab : a ≤ b)
    (hbc : b ≤ c) :
    listSlice l a b ++ listSlice l b c = listSlice l a c := by
  have h1 := listSlice_take l a c (b - a) (by omega)
  have h2 := listSlice_drop l a c (b - a)
  have hb : a + (b - a) = b := by omega
  rw [hb] at h1 h2
  rw [← h1, ← h2, List.take_append_drop]

theorem listSlice_all (l : List Nat) : listSlice l 0 l.length = l := by
  simp [listSlice]

theorem listSlice_oob (l : List Nat) {a b : Nat} (h : l.length ≤ a) :
    listSlice l a b = [] := by
  unfold listSlice
  rw [List.drop_eq_nil_iff]
  simp only [List.length_take]
  omega

/-! ## Chain geometry lemmas -/

/-- The last element named by `getLast?` is a member. -/
theorem mem_of_getLast?_eq {bs : List MemBlock} {lb : MemBlock}
    (h : bs.getLast? = some lb) : lb ∈ bs :=
  List.mem_of_mem_getLast? (Option.mem_def.mpr h)

/-- In a chain of strictly increasing ids, a pointer into the last block
points into no other block. -/
theorem last_id_top {bs : List MemBlock} {lb : MemBlock}
    (hpw : bs.Pairwise (fun a b => a.id < b.id))
    (hlast : bs.getLast? = some lb) :
    ∀ b ∈ bs, b = lb ∨ b.id < lb.id := by
  induction bs with
  | nil => simp at hlast
  | cons x xs ih =>
    rw [List.pairwise_cons] at hpw
    intro b hb
    cases xs with
    | nil =>
      simp only [List.getLast?_singleton, Option.some.injEq] at hlast
      simp only [List.mem_singleton] at hb
      subst hb
      left
      exact hlast
    | cons y ys =>
      rw [List.getLast?_cons_cons] at hlast
      rcases List.mem_cons.mp hb with rfl | hb2
      · right
        exact hpw.1 lb (mem_of_getLast?_eq hlast)
      · exact ih hpw.2 hlast b hb2

/-- Unfolding equation for `chain_data` on a cons cell. -/
theorem chain_data_cons (b : MemBlock) (rest : List MemBlock) (gOff : Nat)
    (p : Ptr) :
    chain_data (b :: rest) gOff p =
      if p.blk = b.id then listSlice b.data gOff p.off
      else listSlice b.data gOff b.blockSize ++ chain_data rest 0 p := rfl

theorem chain_data_nil (gOff : Nat) (p : Ptr) :
    chain_data [] gOff p = [] := rfl

/-- `chain_data` after a write at the put cursor: the chain contents grow
by exactly the written bytes. -/
theorem chain_data_write (bs : List MemBlock) (gOff : Nat) (p : Ptr)
    (src : List Nat) (lb : MemBlock)
    (hlast : bs.getLast? = some lb) (hblk : p.blk = lb.id)
    (hfit : p.off + src.length ≤ lb.blockSize)
    (hpw : bs.Pairwise (fun a b => a.id < b.id))
    (hdata : ∀ b ∈ bs, b.data.length = b.blockSize)
    (hg : bs.length = 1 → gOff ≤ p.off) :
    chain_data (blocksWrite bs p src) gOff ⟨p.blk, p.off + src.length⟩ =
      chain_data bs gOff p ++ src := by
  induction bs generalizing gOff with
  | nil => simp at hlast
  | cons x xs ih =>
    cases xs with
    | nil =>
      have hx : x = lb := by simpa using hlast
      subst hx
      have hdx : x.data.length = x.blockSize := hdata x (by simp)
      simp only [blocksWrite, List.map_cons, List.map_nil]
      rw [if_pos hblk.symm, chain_data_cons, chain_data_cons]
      rw [if_pos hblk, if_pos hblk]
      exact listSlice_write x.data p.off src gOff (hg rfl) (by omega)
    | cons y ys =>
      rw [List.getLast?_cons_cons] at hlast
      rw [List.pairwise_cons] at hpw
      have hxlt : x.id < lb.id := hpw.1 lb (mem_of_getLast?_eq hlast)
      have hxne : x.id ≠ p.blk := by rw [hblk]; omega
      have hmap : blocksWrite (x :: y :: ys) p src =
          x :: blocksWrite (y :: ys) p src := by
        simp only [blocksWrite, List.map_cons]
        rw [if_neg hxne]
      rw [hmap]
      have eL : chain_data (x :: blocksWrite (y :: ys) p src) gOff
          (Ptr.mk p.blk (p.off + src.length)) =
          listSlice x.data gOff x.blockSize ++
            chain_data (blocksWrite (y :: ys) p src) 0
              (Ptr.mk p.blk (p.off + src.length)) := by
        rw [chain_data_cons,
          if_neg (show ¬((Ptr.mk p.blk (p.off + src.length)).blk = x.id) from
            fun hc => hxne hc.symm)]
      have eR : chain_data (x :: y :: ys) gOff p =
          listSlice x.data gOff x.blockSize ++ chain_data (y :: ys) 0 p := by
        rw [chain_data_cons,
          if_neg (show ¬(p.blk = x.id) from fun hc => hxne hc.symm)]
      rw [eL, eR, List.append_assoc]
      congr 1
      exact ih 0 hlast hpw.2 (fun b hb => hdata b (by simp [hb]))
        (fun _ => Nat.zero_le _)

/-- `chain_data` over an appended fresh block: the old contents up to the
old end, then the new block's prefix. -/
theorem chain_data_append (bs : List MemBlock) (nb : MemBlock) (gOff k : Nat)
    (lb : MemBlock) (hlast : bs.getLast? = some lb)
    (hpw : bs.Pairwise (fun a b => a.id < b.id))
    (hfresh : ∀ b ∈ bs, b.id < nb.id) :
    chain_data (bs ++ [nb]) gOff ⟨nb.id, k⟩ =
      chain_data bs gOff ⟨lb.id, lb.blockSize⟩ ++ listSlice nb.data 0 k := by
  induction bs generalizing gOff with
  | nil => simp at hlast
  | cons x xs ih =>
    cases xs with
    | nil =>
      have hx : x = lb := by simpa using hlast
      subst hx
      have hne : nb.id ≠ x.id := by
        have := hfresh x (by simp)
        omega
      simp only [List.cons_append, List.nil_append]
      rw [chain_data_cons, chain_data_cons]
      rw [if_neg hne, if_pos rfl, chain_data_cons, if_pos rfl]
    | cons y ys =>
      rw [List.getLast?_cons_cons] at hlast
      rw [List.pairwise_cons] at hpw
      have hne : nb.id ≠ x.id := by
        have := hfresh x (by simp)
        omega
      have hlb : lb.id ≠ x.id := by
        have := hpw.1 lb (mem_of_getLast?_eq hlast)
        omega
      simp only [List.cons_append]
      have eL : chain_data (x :: y :: (ys ++ [nb])) gOff (Ptr.mk nb.id k) =
          listSlice x.data gOff x.blockSize ++
            chain_data (y :: (ys ++ [nb])) 0 (Ptr.mk nb.id k) := by
        rw [chain_data_cons,
          if_neg (show ¬((Ptr.mk nb.id k).blk = x.id) from fun hc => hne hc)]
      have eR : chain_data (x :: y :: ys) gOff (Ptr.mk lb.id lb.blockSize) =
          listSlice x.data gOff x.blockSize ++
            chain_data (y :: ys) 0 (Ptr.mk lb.id lb.blockSize) := by
        rw [chain_data_cons,
          if_neg (show ¬((Ptr.mk lb.id lb.blockSize).blk = x.id) from
            fun hc => hlb hc)]
      rw [eL, eR, List.append_assoc]
      congr 1
      exact ih 0 hlast hpw.2 (fun b hb => hfresh b (by simp [hb]))

/-- Heads come no later than lasts in an id-sorted chain. -/
theorem head_eq_or_lt_last {bs : List MemBlock} {hb lb : MemBlock}
    (hpw : bs.Pairwise (fun a b => a.id < b.id))
    (hhead : bs.head? = some hb) (hlast : bs.getLast? = some lb) :
    hb = lb ∨ hb.id < lb.id :=
  last_id_top hpw hlast hb (List.mem_of_mem_head? (Option.mem_def.mpr hhead))

/-- Dropping a fully-consumed head block from the chain view. -/
theorem chain_data_drop_head (b : MemBlock) (rest : List MemBlock) (p : Ptr)
    (hne : p.blk ≠ b.id) :
    chain_data (b :: rest) b.blockSize p = chain_data rest 0 p := by
  rw [chain_data_cons, if_neg (fun hc => hne hc), listSlice_self,
    List.nil_append]

/-- Reading `len` bytes at the head of the chain view: the bytes are the
front of the view, and advancing the read offset drops them. -/
theorem chain_data_read (bs : List MemBlock) (hb : MemBlock)
    (gOff len : Nat) (p : Ptr) (hhead : bs.head? = some hb)
    (hdata : ∀ b ∈ bs, b.data.length = b.blockSize)
    (hsingle : bs.length = 1 → p.blk = hb.id ∧ gOff + len ≤ p.off ∧
      p.off ≤ hb.blockSize)
    (hmulti : 1 < bs.length → p.blk ≠ hb.id ∧ gOff + len ≤ hb.blockSize) :
    blocksRead bs ⟨hb.id, gOff⟩ len = (chain_data bs gOff p).take len ∧
    chain_data bs (gOff + len) p = (chain_data bs gOff p).drop len := by
  match bs, hhead with
  | [x], hhead =>
    have hx : x = hb := by simpa using hhead
    subst hx
    obtain ⟨hblk, hfit, hpoff⟩ := hsingle rfl
    have hdx : x.data.length = x.blockSize := hdata x (by simp)
    constructor
    · have hfind : List.find? (fun b => b.id == x.id) [x] = some x :=
        List.find?_cons_of_pos _ (by simp)
      simp only [blocksRead, hfind]
      rw [chain_data_cons, if_pos hblk, listSlice_take x.data gOff p.off len hfit]
    · rw [chain_data_cons, chain_data_cons, if_pos hblk, if_pos hblk,
        listSlice_drop]
  | x :: y :: ys, hhead =>
    have hx : x = hb := by simpa using hhead
    subst hx
    obtain ⟨hblk, hfit⟩ := hmulti (by simp)
    have hdx : x.data.length = x.blockSize := hdata x (by simp)
    have hlenA : (listSlice x.data gOff x.blockSize).length =
        x.blockSize - gOff := by
      rw [listSlice_len, hdx, Nat.min_self]
    constructor
    · have hfind : List.find? (fun b => b.id == x.id) (x :: y :: ys) = some x :=
        List.find?_cons_of_pos _ (by simp)
      simp only [blocksRead, hfind]
      rw [chain_data_cons, if_neg (fun hc => hblk hc)]
      rw [List.take_append_eq_append_take, hlenA]
      have h0 : len - (x.blockSize - gOff) = 0 := by omega
      rw [h0]
      simp only [List.take_zero, List.append_nil]
      rw [listSlice_take x.data gOff x.blockSize len hfit]
    · conv_lhs => rw [chain_data_cons]
      conv_rhs => rw [chain_data_cons]
      rw [if_neg (fun hc => hblk hc), if_neg (fun hc => hblk hc)]
      rw [List.drop_append_eq_append_drop, hlenA]
      have h0 : len - (x.blockSize - gOff) = 0 := by omega
      rw [h0]
      simp only [List.drop_zero]
      rw [listSlice_drop]

/-! ## StreamBuf: update_put_area -/

/-- `update_put_area` preserves the invariant and the buffer contents;
it returns the (possibly rewound) `pptr` together with the contiguous
space in front of it, and touches nothing but the handshake fields,
`m_total_reset` and `pptr`.  The reset branch fires only on an empty
buffer (derived from the `m_last_gptr` discipline), so no bytes are
lost. -/
theorem update_put_area_spec (sb : SB) (hInv : SBInv sb) :
    SBInv (update_put_area sb).1 ∧
    buffer_bytes (update_put_area sb).1 = buffer_bytes sb ∧
    (update_put_area sb).2.1 = (update_put_area sb).1.pptr ∧
    (update_put_area sb).2.2 = unused_in_last_block (update_put_area sb).1 ∧
    (update_put_area sb).1.blocks = sb.blocks ∧
    (update_put_area sb).1.gptr = sb.gptr ∧
    (update_put_area sb).1.m_total_allocated = sb.m_total_allocated ∧
    (update_put_area sb).1.m_total_freed = sb.m_total_freed ∧
    (update_put_area sb).1.m_total_read = sb.m_total_read ∧
    (update_put_area sb).1.m_minimum_block_size = sb.m_minimum_block_size ∧
    (update_put_area sb).1.m_max_allocated_block_size =
      sb.m_max_allocated_block_size ∧
    (update_put_area sb).1.nextId = sb.nextId ∧
    (update_put_area sb).1.m_last_gptr = sb.m_last_gptr ∧
    unused_in_last_block sb ≤ unused_in_last_block (update_put_area sb).1 := by
  by_cases h : sb.pptr ≠ sb.pbase ∧ sb.m_next_egptr ≠ none ∧
      sb.m_last_gptr = some sb.pptr
  case neg =>
    simp only [update_put_area, if_neg h]
    refine ⟨hInv, ?_, ?_, ?_, ?_, ?_, ?_, ?_, ?_, ?_, ?_, ?_, ?_, le_refl _⟩
      <;> trivial
  case pos =>
    obtain ⟨h1, h2, h3⟩ := h
    obtain ⟨lb, hlast, hpblk, hpoff, hpbase, hepptr⟩ := hInv.put_area
    obtain ⟨hb, hhead, hgblk, hgoff⟩ := hInv.get_area
    have hlble : lb.id ≤ hb.id := by
      have hx := hInv.lastg_blk sb.pptr h3
      rw [hpblk, hgblk] at hx
      exact hx
    have hbeq : hb.id = lb.id := by
      rcases head_eq_or_lt_last hInv.ids_pw hhead hlast with he | hlt
      · rw [he]
      · omega
    have hgoff_eq : sb.gptr.off = sb.pptr.off := by
      have hle1 : sb.gptr.off ≤ sb.pptr.off :=
        hInv.orderA h2 (by rw [hgblk, hpblk, hbeq])
      have hle2 : sb.pptr.off ≤ sb.gptr.off :=
        hInv.lastg_off sb.pptr h3 (by rw [hpblk, hgblk, hbeq])
      omega
    obtain ⟨t, hbl⟩ : ∃ t, sb.blocks = hb :: t := by
      cases hbl : sb.blocks with
      | nil => rw [hbl] at hhead; exact absurd hhead (by simp)
      | cons a l =>
        rw [hbl] at hhead
        simp only [List.head?_cons, Option.some.injEq] at hhead
        exact ⟨l, by rw [hhead]⟩
    have hemp : buffer_bytes sb = [] := by
      unfold buffer_bytes
      rw [if_neg h2, hbl, chain_data_cons,
        if_pos (by rw [hpblk, hbeq] : sb.pptr.blk = hb.id), hgoff_eq,
        listSlice_self]
    have hcond : sb.pptr ≠ sb.pbase ∧ sb.m_next_egptr ≠ none ∧
        sb.m_last_gptr = some sb.pptr := ⟨h1, h2, h3⟩
    simp only [update_put_area, if_pos hcond]
    have hemp2 : buffer_bytes
        { sb with
          m_next_egptr2 := sb.pbase
          m_next_egptr := none
          m_total_reset := sb.m_total_reset + (sb.pptr.off - sb.pbase.off)
          pptr := sb.pbase } = [] := by
      unfold buffer_bytes
      simp only
      rw [if_pos trivial, hbl, chain_data_cons,
        if_pos (by rw [hpbase, hbeq] : sb.pbase.blk = hb.id)]
      rw [hpbase]
      exact listSlice_self _ 0
    have hp0 : sb.pbase.off = 0 := by rw [hpbase]
    refine ⟨?_, by rw [hemp2, hemp], by trivial, by trivial, by trivial,
      by trivial, by trivial, by trivial, by trivial, by trivial, by trivial,
      by trivial, by trivial,
      by unfold unused_in_last_block; simp only; omega⟩
    refine
      { min_pos := hInv.min_pos
        size_pos := hInv.size_pos
        data_len := hInv.data_len
        ids_pw := hInv.ids_pw
        ids_lt := hInv.ids_lt
        put_area := ⟨lb, hlast, by rw [hpbase], by rw [hpbase]; exact Nat.zero_le _,
          hpbase, hepptr⟩
        get_area := ⟨hb, hhead, hgblk, hgoff⟩
        sync2 := rfl
        syncA := fun p hp => Option.noConfusion hp
        orderA := fun hne => absurd rfl hne
        lastg_blk := ?_
        lastg_off := ?_
        alloc_eq := hInv.alloc_eq
        count_eq := ?_ }
    · intro l hl
      simp only at hl
      rw [h3] at hl
      obtain rfl : sb.pptr = l := by injection hl
      simp only
      rw [hpblk, hgblk, hbeq]
    · intro l hl _hblk
      simp only at hl
      rw [h3] at hl
      obtain rfl : sb.pptr = l := by injection hl
      simp only
      omega
    · have he : sb.epptr.off = lb.blockSize := by rw [hepptr]
      have hp0 : sb.pbase.off = 0 := by rw [hpbase]
      have hold := hInv.count_eq
      rw [hemp] at hold
      simp only [List.length_nil] at hold
      unfold unused_in_last_block at hold
      simp only [hemp2, List.length_nil]
      unfold unused_in_last_block
      simp only
      omega

/-! ## StreamBuf: the producer write step -/

theorem write_block_id (p : Ptr) (src : List Nat) (b : MemBlock) :
    (if b.id = p.blk then { b with data := listWrite b.data p.off src }
      else b).id = b.id := by
  split <;> rfl

theorem write_block_size (p : Ptr) (src : List Nat) (b : MemBlock) :
    (if b.id = p.blk then { b with data := listWrite b.data p.off src }
      else b).blockSize = b.blockSize := by
  split <;> rfl

theorem sumSizes_blocksWrite (bs : List MemBlock) (p : Ptr)
    (src : List Nat) : sumSizes (blocksWrite bs p src) = sumSizes bs := by
  unfold sumSizes blocksWrite
  rw [List.map_map]
  congr 1
  exact List.map_congr_left fun b _ => write_block_size p src b

/-- Writing `src` at the put cursor and bumping it: the invariant is
preserved and the buffer grows by exactly the written bytes. -/
theorem write_pbump_spec (sb : SB) (hInv : SBInv sb) (src : List Nat)
    (hfit : sb.pptr.off + src.length ≤ sb.epptr.off) :
    SBInv (producer_pbump (write_through sb sb.pptr src) src.length) ∧
    buffer_bytes (producer_pbump (write_through sb sb.pptr src) src.length) =
      buffer_bytes sb ++ src ∧
    (producer_pbump (write_through sb sb.pptr src) src.length).pptr =
      ⟨sb.pptr.blk, sb.pptr.off + src.length⟩ ∧
    (producer_pbump (write_through sb sb.pptr src) src.length).epptr =
      sb.epptr ∧
    (producer_pbump (write_through sb sb.pptr src) src.length).gptr =
      sb.gptr ∧
    (producer_pbump (write_through sb sb.pptr src) src.length).m_last_gptr =
      sb.m_last_gptr ∧
    (producer_pbump (write_through sb sb.pptr src) src.length).m_total_allocated =
      sb.m_total_allocated ∧
    (producer_pbump (write_through sb sb.pptr src) src.length).m_total_freed =
      sb.m_total_freed ∧
    (producer_pbump (write_through sb sb.pptr src) src.length).m_total_read =
      sb.m_total_read ∧
    (producer_pbump (write_through sb sb.pptr src) src.length).m_total_reset =
      sb.m_total_reset ∧
    (producer_pbump (write_through sb sb.pptr src) src.length).m_minimum_block_size =
      sb.m_minimum_block_size ∧
    (producer_pbump (write_through sb sb.pptr src) src.length).m_max_allocated_block_size =
      sb.m_max_allocated_block_size ∧
    (producer_pbump (write_through sb sb.pptr src) src.length).nextId =
      sb.nextId ∧
    (producer_pbump (write_through sb sb.pptr src) src.length).blocks =
      blocksWrite sb.blocks sb.pptr src := by
  obtain ⟨lb, hlast, hpblk, hpoff, hpbase, hepptr⟩ := hInv.put_area
  obtain ⟨hb, hhead, hgblk, hgoff⟩ := hInv.get_area
  have hesize : sb.epptr.off = lb.blockSize := by rw [hepptr]
  have hfitlb : sb.pptr.off + src.length ≤ lb.blockSize := by omega
  have hdlb : lb.data.length = lb.blockSize :=
    hInv.data_len lb (mem_of_getLast?_eq hlast)
  -- the only block whose id is the put cursor's is the last one
  have huniq : ∀ b ∈ sb.blocks, b.id = sb.pptr.blk → b = lb := by
    intro b hbm hbid
    rcases last_id_top hInv.ids_pw hlast b hbm with he | hlt
    · exact he
    · rw [hpblk] at hbid
      omega
  -- shape of the written chain
  have hW_last : (blocksWrite sb.blocks sb.pptr src).getLast? =
      some { lb with data := listWrite lb.data sb.pptr.off src } := by
    unfold blocksWrite
    rw [List.getLast?_map, hlast]
    simp only [Option.map_some']
    rw [if_pos hpblk.symm]
  obtain ⟨t, hbshape⟩ : ∃ t, sb.blocks = hb :: t := by
    cases hbl : sb.blocks with
    | nil => rw [hbl] at hhead; exact absurd hhead (by simp)
    | cons a l =>
      rw [hbl] at hhead
      simp only [List.head?_cons, Option.some.injEq] at hhead
      exact ⟨l, by rw [hhead]⟩
  have hW_head : ∃ hb', (blocksWrite sb.blocks sb.pptr src).head? = some hb' ∧
      hb'.id = hb.id ∧ hb'.blockSize = hb.blockSize := by
    refine ⟨_, ?_, write_block_id sb.pptr src hb, write_block_size sb.pptr src hb⟩
    unfold blocksWrite
    rw [List.head?_map, hhead]
    rfl
  have hdata' : ∀ b ∈ blocksWrite sb.blocks sb.pptr src,
      b.data.length = b.blockSize := by
    intro b' hb'
    unfold blocksWrite at hb'
    obtain ⟨b, hbm, rfl⟩ := List.mem_map.mp hb'
    by_cases hid : b.id = sb.pptr.blk
    · rw [if_pos hid]
      obtain rfl : b = lb := huniq b hbm hid
      simp only
      rw [listWrite_length _ _ _ (by omega)]
      exact hdlb
    · rw [if_neg hid]
      exact hInv.data_len b hbm
  have hsize' : ∀ b ∈ blocksWrite sb.blocks sb.pptr src, 0 < b.blockSize := by
    intro b' hb'
    unfold blocksWrite at hb'
    obtain ⟨b, hbm, rfl⟩ := List.mem_map.mp hb'
    rw [write_block_size]
    exact hInv.size_pos b hbm
  have hpw' : (blocksWrite sb.blocks sb.pptr src).Pairwise
      (fun a b => a.id < b.id) := by
    unfold blocksWrite
    rw [List.pairwise_map]
    refine hInv.ids_pw.imp_of_mem ?_
    intro a b _ _ hab
    rw [write_block_id, write_block_id]
    exact hab
  have hlt' : ∀ b ∈ blocksWrite sb.blocks sb.pptr src, b.id < sb.nextId := by
    intro b' hb'
    unfold blocksWrite at hb'
    obtain ⟨b, hbm, rfl⟩ := List.mem_map.mp hb'
    rw [write_block_id]
    exact hInv.ids_lt b hbm
  have hchainP : ∀ gOff, (sb.blocks.length = 1 → gOff ≤ sb.pptr.off) →
      chain_data (blocksWrite sb.blocks sb.pptr src) gOff
        (Ptr.mk sb.pptr.blk (sb.pptr.off + src.length)) =
      chain_data sb.blocks gOff sb.pptr ++ src := by
    intro gOff hg
    exact chain_data_write sb.blocks gOff sb.pptr src lb hlast hpblk hfitlb
      hInv.ids_pw hInv.data_len hg
  have hsingle_blk : sb.blocks.length = 1 → sb.gptr.blk = sb.pptr.blk := by
    intro h1
    have : hb = lb := by
      rw [hbshape] at h1 hlast hhead
      simp at h1
      rw [h1] at hlast
      simp at hlast
      rw [hlast]
    rw [hgblk, hpblk, this]
  have hcount : ∀ (gOff : Nat),
      (buffer_bytes sb).length + unused_in_last_block sb =
      (buffer_bytes sb).length + (sb.epptr.off - sb.pptr.off) := fun _ => rfl
  by_cases hph : sb.m_next_egptr = none
  case pos =>
    simp only [producer_pbump, write_through, sync_egptr]
    rw [if_neg (by simp [hph])]
    have hbuf : buffer_bytes
        { sb with
          blocks := blocksWrite sb.blocks sb.pptr src
          pptr := Ptr.mk sb.pptr.blk (sb.pptr.off + src.length)
          m_next_egptr2 := Ptr.mk sb.pptr.blk (sb.pptr.off + src.length) } =
        buffer_bytes sb ++ src := by
      unfold buffer_bytes
      simp only
      rw [if_pos hph]
      exact hchainP 0 (fun _ => Nat.zero_le _)
    refine ⟨?_, hbuf, by trivial, by trivial, by trivial, by trivial,
      by trivial, by trivial, by trivial, by trivial, by trivial, by trivial,
      by trivial, by trivial⟩
    refine
      { min_pos := hInv.min_pos
        size_pos := hsize'
        data_len := hdata'
        ids_pw := hpw'
        ids_lt := hlt'
        put_area := ⟨_, hW_last, hpblk, by simpa using hfitlb,
          by rw [hpbase], by rw [hepptr]⟩
        get_area := ?_
        sync2 := rfl
        syncA := fun p hp => absurd hp (by simp [hph])
        orderA := fun hne => absurd hph (by simpa using hne)
        lastg_blk := fun l hl => hInv.lastg_blk l hl
        lastg_off := fun l hl => hInv.lastg_off l hl
        alloc_eq := ?_
        count_eq := ?_ }
    · obtain ⟨hb', hh', hid', hsz'⟩ := hW_head
      exact ⟨hb', hh', by rw [hid']; exact hgblk, by rw [hsz']; exact hgoff⟩
    · simp only
      rw [sumSizes_blocksWrite]
      exact hInv.alloc_eq
    · simp only
      rw [hbuf]
      have hold := hInv.count_eq
      unfold unused_in_last_block at hold ⊢
      simp only [List.length_append]
      omega
  case neg =>
    simp only [producer_pbump, write_through, sync_egptr]
    rw [if_pos (by simp [hph])]
    have hgle : sb.blocks.length = 1 → sb.gptr.off ≤ sb.pptr.off := by
      intro h1
      exact hInv.orderA hph (hsingle_blk h1)
    have hbuf : buffer_bytes
        { sb with
          blocks := blocksWrite sb.blocks sb.pptr src
          pptr := Ptr.mk sb.pptr.blk (sb.pptr.off + src.length)
          m_next_egptr2 := Ptr.mk sb.pptr.blk (sb.pptr.off + src.length)
          m_next_egptr :=
            some (Ptr.mk sb.pptr.blk (sb.pptr.off + src.length)) } =
        buffer_bytes sb ++ src := by
      unfold buffer_bytes
      simp only
      rw [if_neg (by simp), if_neg hph]
      exact hchainP sb.gptr.off hgle
    refine ⟨?_, hbuf, by trivial, by trivial, by trivial, by trivial,
      by trivial, by trivial, by trivial, by trivial, by trivial, by trivial,
      by trivial, by trivial⟩
    refine
      { min_pos := hInv.min_pos
        size_pos := hsize'
        data_len := hdata'
        ids_pw := hpw'
        ids_lt := hlt'
        put_area := ⟨_, hW_last, hpblk, by simpa using hfitlb,
          by rw [hpbase], by rw [hepptr]⟩
        get_area := ?_
        sync2 := rfl
        syncA := ?_
        orderA := ?_
        lastg_blk := fun l hl => hInv.lastg_blk l hl
        lastg_off := fun l hl => hInv.lastg_off l hl
        alloc_eq := ?_
        count_eq := ?_ }
    · obtain ⟨hb', hh', hid', hsz'⟩ := hW_head
      exact ⟨hb', hh', by rw [hid']; exact hgblk, by rw [hsz']; exact hgoff⟩
    · intro p hp
      simp only [Option.some.injEq] at hp
      rw [← hp]
    · intro _hne hsame
      simp only at hsame ⊢
      have := hInv.orderA hph (by simpa using hsame)
      omega
    · simp only
      rw [sumSizes_blocksWrite]
      exact hInv.alloc_eq
    · simp only
      rw [hbuf]
      have hold := hInv.count_eq
      unfold unused_in_last_block at hold ⊢
      simp only [List.length_append]
      omega

/-! ## StreamBuf: installing a fresh put block -/

theorem sumSizes_append (bs : List MemBlock) (nb : MemBlock) :
    sumSizes (bs ++ [nb]) = sumSizes bs + nb.blockSize := by
  simp [sumSizes]

/-- Appending a fresh block when the put block is full: the invariant is
preserved, the buffer contents are unchanged, and the put area moves to
the start of the new block. -/
theorem install_new_block_spec (sb : SB) (hInv : SBInv sb)
    (block_size : Nat) (hpos : 0 < block_size)
    (hfull : sb.pptr.off = sb.epptr.off) :
    SBInv (install_new_block sb block_size) ∧
    buffer_bytes (install_new_block sb block_size) = buffer_bytes sb ∧
    (install_new_block sb block_size).pptr = ⟨sb.nextId, 0⟩ ∧
    (install_new_block sb block_size).epptr = ⟨sb.nextId, block_size⟩ ∧
    (install_new_block sb block_size).gptr = sb.gptr ∧
    (install_new_block sb block_size).m_last_gptr = sb.m_last_gptr ∧
    (install_new_block sb block_size).m_total_allocated =
      sb.m_total_allocated + block_size ∧
    (install_new_block sb block_size).m_total_freed = sb.m_total_freed ∧
    (install_new_block sb block_size).m_total_read = sb.m_total_read ∧
    (install_new_block sb block_size).m_total_reset = sb.m_total_reset ∧
    (install_new_block sb block_size).m_minimum_block_size =
      sb.m_minimum_block_size ∧
    (install_new_block sb block_size).m_max_allocated_block_size =
      sb.m_max_allocated_block_size ∧
    (install_new_block sb block_size).nextId = sb.nextId + 1 ∧
    (install_new_block sb block_size).blocks =
      sb.blocks ++ [⟨sb.nextId, block_size, List.replicate block_size 0⟩] := by
  obtain ⟨lb, hlast, hpblk, hpoff, hpbase, hepptr⟩ := hInv.put_area
  obtain ⟨hb, hhead, hgblk, hgoff⟩ := hInv.get_area
  obtain ⟨t, hbshape⟩ : ∃ t, sb.blocks = hb :: t := by
    cases hbl : sb.blocks with
    | nil => rw [hbl] at hhead; exact absurd hhead (by simp)
    | cons a l =>
      rw [hbl] at hhead
      simp only [List.head?_cons, Option.some.injEq] at hhead
      exact ⟨l, by rw [hhead]⟩
  have hesize : sb.epptr.off = lb.blockSize := by rw [hepptr]
  have hpfull : sb.pptr = ⟨lb.id, lb.blockSize⟩ := by
    cases hp : sb.pptr with
    | mk a o =>
      rw [hp] at hpblk hfull
      simp only at hpblk hfull ⊢
      rw [Ptr.mk.injEq]
      omega
  have hfresh : ∀ b ∈ sb.blocks, b.id <
      (⟨sb.nextId, block_size, List.replicate block_size 0⟩ : MemBlock).id :=
    fun b hbm => hInv.ids_lt b hbm
  have hchain : ∀ gOff,
      chain_data (sb.blocks ++ [⟨sb.nextId, block_size,
          List.replicate block_size 0⟩]) gOff (Ptr.mk sb.nextId 0) =
      chain_data sb.blocks gOff sb.pptr := by
    intro gOff
    rw [chain_data_append sb.blocks _ gOff 0 lb hlast hInv.ids_pw hfresh]
    rw [listSlice_self, List.append_nil, hpfull]
  have hnewdl : (List.replicate block_size (0 : Nat)).length = block_size :=
    List.length_replicate _ _
  have hOldCount := hInv.count_eq
  have hUnusedOld : unused_in_last_block sb = 0 := by
    unfold unused_in_last_block
    omega
  by_cases hph : sb.m_next_egptr = none
  case pos =>
    simp only [install_new_block, create_memory_block, producer_setp,
      sync_egptr]
    rw [if_neg (by simp [hph])]
    have hbuf : buffer_bytes
        { sb with
          blocks := sb.blocks ++
            [⟨sb.nextId, block_size, List.replicate block_size 0⟩]
          m_total_allocated := sb.m_total_allocated + block_size
          nextId := sb.nextId + 1
          m_next_egptr2 := Ptr.mk sb.nextId 0
          pbase := Ptr.mk sb.nextId 0
          pptr := Ptr.mk sb.nextId 0
          epptr := Ptr.mk sb.nextId block_size } = buffer_bytes sb := by
      unfold buffer_bytes
      simp only
      rw [if_pos hph]
      exact hchain 0
    refine ⟨?_, hbuf, by trivial, by trivial, by trivial, by trivial,
      by trivial, by trivial, by trivial, by trivial, by trivial, by trivial,
      by trivial, by trivial⟩
    refine
      { min_pos := hInv.min_pos
        size_pos := ?_
        data_len := ?_
        ids_pw := ?_
        ids_lt := ?_
        put_area := ⟨⟨sb.nextId, block_size, List.replicate block_size 0⟩,
          by rw [List.getLast?_concat], rfl, by simp,
          rfl, rfl⟩
        get_area := ⟨hb, by rw [hbshape]; rfl, hgblk, hgoff⟩
        sync2 := rfl
        syncA := fun p hp => absurd hp (by simp [hph])
        orderA := fun hne => absurd hph (by simpa using hne)
        lastg_blk := fun l hl => hInv.lastg_blk l hl
        lastg_off := fun l hl => hInv.lastg_off l hl
        alloc_eq := ?_
        count_eq := ?_ }
    · intro b hbm
      rcases List.mem_append.mp hbm with hm | hm
      · exact hInv.size_pos b hm
      · simp only [List.mem_singleton] at hm
        rw [hm]
        exact hpos
    · intro b hbm
      rcases List.mem_append.mp hbm with hm | hm
      · exact hInv.data_len b hm
      · simp only [List.mem_singleton] at hm
        rw [hm]
        exact hnewdl
    · rw [List.pairwise_append]
      refine ⟨hInv.ids_pw, by simp, ?_⟩
      intro a ha b hbm
      simp only [List.mem_singleton] at hbm
      rw [hbm]
      exact hInv.ids_lt a ha
    · intro b hbm
      rcases List.mem_append.mp hbm with hm | hm
      · have := hInv.ids_lt b hm
        simp only
        omega
      · simp only [List.mem_singleton] at hm
        rw [hm]
        simp
    · simp only
      rw [sumSizes_append]
      simp only
      have := hInv.alloc_eq
      omega
    · simp only
      rw [hbuf]
      unfold unused_in_last_block
      simp only
      omega
  case neg =>
    simp only [install_new_block, create_memory_block, producer_setp,
      sync_egptr]
    rw [if_pos (by simp [hph])]
    have hbuf : buffer_bytes
        { sb with
          blocks := sb.blocks ++
            [⟨sb.nextId, block_size, List.replicate block_size 0⟩]
          m_total_allocated := sb.m_total_allocated + block_size
          nextId := sb.nextId + 1
          m_next_egptr2 := Ptr.mk sb.nextId 0
          m_next_egptr := some (Ptr.mk sb.nextId 0)
          pbase := Ptr.mk sb.nextId 0
          pptr := Ptr.mk sb.nextId 0
          epptr := Ptr.mk sb.nextId block_size } = buffer_bytes sb := by
      unfold buffer_bytes
      simp only
      rw [if_neg (by simp), if_neg hph]
      exact hchain sb.gptr.off
    refine ⟨?_, hbuf, by trivial, by trivial, by trivial, by trivial,
      by trivial, by trivial, by trivial, by trivial, by trivial, by trivial,
      by trivial, by trivial⟩
    refine
      { min_pos := hInv.min_pos
        size_pos := ?_
        data_len := ?_
        ids_pw := ?_
        ids_lt := ?_
        put_area := ⟨⟨sb.nextId, block_size, List.replicate block_size 0⟩,
          by rw [List.getLast?_concat], rfl, by simp,
          rfl, rfl⟩
        get_area := ⟨hb, by rw [hbshape]; rfl, hgblk, hgoff⟩
        sync2 := rfl
        syncA := ?_
        orderA := ?_
        lastg_blk := fun l hl => hInv.lastg_blk l hl
        lastg_off := fun l hl => hInv.lastg_off l hl
        alloc_eq := ?_
        count_eq := ?_ }
    · intro b hbm
      rcases List.mem_append.mp hbm with hm | hm
      · exact hInv.size_pos b hm
      · simp only [List.mem_singleton] at hm
        rw [hm]
        exact hpos
    · intro b hbm
      rcases List.mem_append.mp hbm with hm | hm
      · exact hInv.data_len b hm
      · simp only [List.mem_singleton] at hm
        rw [hm]
        exact hnewdl
    · rw [List.pairwise_append]
      refine ⟨hInv.ids_pw, by simp, ?_⟩
      intro a ha b hbm
      simp only [List.mem_singleton] at hbm
      rw [hbm]
      exact hInv.ids_lt a ha
    · intro b hbm
      rcases List.mem_append.mp hbm with hm | hm
      · have := hInv.ids_lt b hm
        simp only
        omega
      · simp only [List.mem_singleton] at hm
        rw [hm]
        simp
    · intro p hp
      simp only [Option.some.injEq] at hp
      rw [← hp]
    · intro _hne hsame
      simp only at hsame
      have := hInv.ids_lt hb (by rw [hbshape]; simp)
      rw [hgblk] at hsame
      omega
    · simp only
      rw [sumSizes_append]
      simp only
      have := hInv.alloc_eq
      omega
    · simp only
      rw [hbuf]
      unfold unused_in_last_block
      simp only
      omega

/-! ## StreamBuf: the xsputn_a loop -/

theorem listTake_add (l : List Nat) (m n : Nat) :
    l.take (m + n) = l.take m ++ (l.drop m).take n := by
  rw [List.take_drop]
  have h : l.take m = (l.take (m + n)).take m := by
    rw [List.take_take]
    have hm : min m (m + n) = m := by omega
    rw [hm]
  rw [h, List.take_append_drop]

/-- Every block size admitted by the clamp test of `xsputn_a` /
`overflow_a` is at least the configured minimum. -/
theorem clamped_block_size_min (sb : SB) (bsize : Nat)
    (h : clamped_block_size sb = some bsize) :
    sb.m_minimum_block_size ≤ bsize := by
  simp only [clamped_block_size] at h
  split at h
  · split at h
    · exact absurd h (by simp)
    · simp only [Option.some.injEq] at h
      omega
  · simp only [Option.some.injEq] at h
    subst h
    unfold new_block_size malloc_size sizeofMemoryBlock
    omega

/-- One unfolding of the `xsputn_a` loop in the non-empty case, with the
`update_put_area` result destructured. -/
theorem xsputn_loop_succ (fuel : Nat) (sb : SB) (s : List Nat) (copied : Nat)
    (sb1 : SB) (cur1 : Ptr) (avail1 : Nat)
    (hup : update_put_area sb = (sb1, cur1, avail1))
    (hse : s.isEmpty = false) :
    xsputn_loop (fuel + 1) sb s copied =
      (let len := min avail1 s.length
       let sb2 := if 0 < avail1 then
           producer_pbump (write_through sb1 cur1 (s.take len)) len
         else sb1
       let s' := if 0 < avail1 then s.drop len else s
       let copied' := if 0 < avail1 then copied + len else copied
       if s'.isEmpty then some (sb2, (copied' : Int), copied')
       else
         match clamped_block_size sb2 with
         | none => some (sb2, EOF, copied')
         | some block_size =>
           xsputn_loop fuel (install_new_block sb2 block_size) s' copied') := by
  simp only [xsputn_loop, hup, hse, Bool.false_eq_true, if_false]

/-- The loop of `xsputn_a`: with sufficient fuel it terminates in an
invariant state, having appended to the buffer exactly the prefix of `s`
it copied; the result is the total copied count, or EOF exactly when it
stopped early because no admissible block size was left (BufferFull). -/
theorem xsputn_loop_spec (fuel : Nat) :
    ∀ (sb : SB) (s : List Nat) (copied : Nat), SBInv sb →
    (2 * s.length + 2 ≤ fuel ∨
      (2 * s.length + 1 ≤ fuel ∧ 0 < unused_in_last_block sb)) →
    ∃ sb' r m, xsputn_loop fuel sb s copied = some (sb', r, copied + m) ∧
      SBInv sb' ∧ m ≤ s.length ∧
      buffer_bytes sb' = buffer_bytes sb ++ s.take m ∧
      ((r = ((copied + m : Nat) : Int) ∧ m = s.length) ∨
        (r = EOF ∧ m < s.length ∧ clamped_block_size sb' = none)) := by
  induction fuel with
  | zero =>
    intro sb s copied _ hfuel
    rcases hfuel with h | ⟨h, _⟩ <;> omega
  | succ fuel ih =>
    intro sb s copied hInv hfuel
    by_cases hse : s.isEmpty = true
    · have hlen0 : s.length = 0 := List.isEmpty_iff_length_eq_zero.mp hse
      refine ⟨sb, (copied : Int), 0, ?_, hInv, Nat.zero_le _, by simp,
        Or.inl ⟨by simp, hlen0.symm⟩⟩
      simp [xsputn_loop, hse]
    · have hse' : s.isEmpty = false := by
        rwa [Bool.not_eq_true] at hse
      have hslen : 0 < s.length := by
        cases s with
        | nil => simp at hse'
        | cons a t => simp
      rcases hU : update_put_area sb with ⟨sb1, cur1, avail1⟩
      have hspec := update_put_area_spec sb hInv
      rw [hU] at hspec
      simp only at hspec
      obtain ⟨hInv1, hbuf1, hcur1, havail1, hblocks1, hgptr1, halloc1, hfreed1,
        hread1, hmin1, hmax1, hnid1, hlgp1, hunu1⟩ := hspec
      obtain ⟨lb1, hlast1, hpblk1, hpoff1, hpbase1, hepptr1⟩ := hInv1.put_area
      have hple : sb1.pptr.off ≤ sb1.epptr.off := by
        rw [hepptr1]; exact hpoff1
      have ha : avail1 = sb1.epptr.off - sb1.pptr.off := havail1
      rw [xsputn_loop_succ fuel sb s copied sb1 cur1 avail1 hU hse']
      by_cases havail : 0 < avail1
      · simp only [if_pos havail]
        set len := min avail1 s.length with hlendef
        have hlenle : len ≤ s.length := min_le_right _ _
        have hlena : len ≤ avail1 := min_le_left _ _
        have hlenpos : 0 < len := lt_min havail hslen
        have htk : (s.take len).length = len := by
          rw [List.length_take]; omega
        have hfit : sb1.pptr.off + (s.take len).length ≤ sb1.epptr.off := by
          rw [htk]; omega
        have hw := write_pbump_spec sb1 hInv1 (s.take len) hfit
        rw [htk, ← hcur1] at hw
        obtain ⟨hInv2, hbuf2, hpptr2, hepptr2, hgptr2, hlgp2, halloc2, hfreed2,
          hread2, hreset2, hmin2, hmax2, hnid2, hblocks2⟩ := hw
        by_cases hde : (s.drop len).isEmpty = true
        · have hdl : (s.drop len).length = 0 :=
            List.isEmpty_iff_length_eq_zero.mp hde
          rw [List.length_drop] at hdl
          have hlene : len = s.length := by omega
          rw [if_pos hde]
          refine ⟨_, _, len, rfl, hInv2, hlenle, ?_,
            Or.inl ⟨rfl, hlene⟩⟩
          rw [hbuf2, hbuf1]
        · rw [if_neg hde]
          have hdl : 0 < (s.drop len).length := by
            cases hd : s.drop len with
            | nil => rw [hd] at hde; simp at hde
            | cons a t => simp [hd]
          rw [List.length_drop] at hdl
          have hlenlt : len < s.length := by omega
          have hlav : len = avail1 := by omega
          rcases hcl : clamped_block_size
              (producer_pbump (write_through sb1 cur1 (s.take len)) len)
            with _ | bsize
          · simp only [hcl]
            refine ⟨_, EOF, len, rfl, hInv2, hlenle, ?_,
              Or.inr ⟨rfl, hlenlt, hcl⟩⟩
            rw [hbuf2, hbuf1]
          · simp only [hcl]
            set sb2 := producer_pbump (write_through sb1 cur1 (s.take len)) len
              with hsb2
            have hbmin : sb2.m_minimum_block_size ≤ bsize :=
              clamped_block_size_min sb2 bsize hcl
            have hbpos : 0 < bsize := lt_of_lt_of_le hInv2.min_pos hbmin
            have hco : cur1.off = sb1.pptr.off := by rw [hcur1]
            have hfull : sb2.pptr.off = sb2.epptr.off := by
              rw [hpptr2, hepptr2]
              simp only
              omega
            have hi := install_new_block_spec sb2 hInv2 bsize hbpos hfull
            obtain ⟨hInv3, hbuf3, hpptr3, hepptr3, hgptr3, hlgp3, halloc3,
              hfreed3, hread3, hreset3, hmin3, hmax3, hnid3, hblocks3⟩ := hi
            have hfuel' : 2 * (s.drop len).length + 2 ≤ fuel ∨
                (2 * (s.drop len).length + 1 ≤ fuel ∧
                  0 < unused_in_last_block (install_new_block sb2 bsize)) := by
              left
              rw [List.length_drop]
              rcases hfuel with h | ⟨h, _⟩ <;> omega
            obtain ⟨sb', r, m', hrun, hInv', hm'le, hbuf', hr'⟩ :=
              ih (install_new_block sb2 bsize) (s.drop len) (copied + len)
                hInv3 hfuel'
            rw [List.length_drop] at hm'le
            refine ⟨sb', r, len + m', ?_, hInv', by omega, ?_, ?_⟩
            · rw [← Nat.add_assoc]
              exact hrun
            · rw [hbuf', hbuf3, hbuf2, hbuf1, listTake_add s len m',
                List.append_assoc]
            · rcases hr' with ⟨hr, hm⟩ | ⟨hr, hmlt, hcl'⟩
              · left
                constructor
                · rw [← Nat.add_assoc]
                  exact hr
                · rw [List.length_drop] at hm
                  omega
              · right
                refine ⟨hr, ?_, hcl'⟩
                rw [List.length_drop] at hmlt
                omega
      · simp only [if_neg havail]
        rw [if_neg hse]
        have ha0 : avail1 = 0 := by omega
        rcases hcl : clamped_block_size sb1 with _ | bsize
        · simp only [hcl]
          refine ⟨sb1, EOF, 0, by rw [Nat.add_zero], hInv1, Nat.zero_le _,
            by rw [hbuf1]; simp, Or.inr ⟨rfl, hslen, hcl⟩⟩
        · simp only [hcl]
          have hbmin : sb1.m_minimum_block_size ≤ bsize :=
            clamped_block_size_min sb1 bsize hcl
          have hbpos : 0 < bsize := lt_of_lt_of_le hInv1.min_pos hbmin
          have hfull : sb1.pptr.off = sb1.epptr.off := by omega
          have hi := install_new_block_spec sb1 hInv1 bsize hbpos hfull
          obtain ⟨hInv3, hbuf3, hpptr3, hepptr3, hgptr3, hlgp3, halloc3,
            hfreed3, hread3, hreset3, hmin3, hmax3, hnid3, hblocks3⟩ := hi
          have hfuelA : 2 * s.length + 2 ≤ fuel + 1 := by
            rcases hfuel with h | ⟨h, hu⟩
            · exact h
            · exfalso
              have hz : unused_in_last_block sb1 = 0 := by omega
              omega
          have hfuel' : 2 * s.length + 2 ≤ fuel ∨
              (2 * s.length + 1 ≤ fuel ∧
                0 < unused_in_last_block (install_new_block sb1 bsize)) := by
            right
            refine ⟨by omega, ?_⟩
            show 0 < (install_new_block sb1 bsize).epptr.off -
              (install_new_block sb1 bsize).pptr.off
            rw [hpptr3, hepptr3]
            simp only
            omega
          obtain ⟨sb', r, m', hrun, hInv', hm'le, hbuf', hr'⟩ :=
            ih (install_new_block sb1 bsize) s copied hInv3 hfuel'
          refine ⟨sb', r, m', hrun, hInv', hm'le, ?_, hr'⟩
          rw [hbuf', hbuf3, hbuf1]

/-- `xsputn_a` from an invariant state: the call succeeds, the copied
prefix is appended to the buffer, and the return value is the copied
count, or EOF exactly on the BufferFull path. -/
theorem xsputn_a_spec (sb : SB) (s : List Nat) (hInv : SBInv sb) :
    ∃ sb' r m, xsputn_a sb s = some (sb', r, m) ∧ SBInv sb' ∧
      m ≤ s.length ∧ buffer_bytes sb' = buffer_bytes sb ++ s.take m ∧
      ((r = (m : Int) ∧ m = s.length) ∨
        (r = EOF ∧ m < s.length ∧ clamped_block_size sb' = none)) := by
  obtain ⟨sb', r, m, h, hInv', hle, hbuf, hr⟩ :=
    xsputn_loop_spec (2 * s.length + 2) sb s 0 hInv (Or.inl le_rfl)
  rw [Nat.zero_add] at h hr
  exact ⟨sb', r, m, h, hInv', hle, hbuf, hr⟩

/-! ## StreamBuf: overflow_a -/

/-- The allocating path of `overflow_a` (write the byte into the fresh
block, then `setp_pbump`) reaches the same state as installing the block
first and then writing through the put cursor. -/
theorem overflow_alloc_path_eq (sb1 : SB) (bsize : Nat) (byte : Nat)
    (hids : ∀ b ∈ sb1.blocks, b.id < sb1.nextId) :
    (match create_memory_block sb1 bsize with
     | (sbA, nb) =>
       let nb := { nb with data := listWrite nb.data 0 [byte] }
       let sbB := { sbA with blocks := sbA.blocks ++ [nb] }
       setp_pbump sbB ⟨nb.id, 0⟩ ⟨nb.id, bsize⟩ 1) =
    producer_pbump (write_through (install_new_block sb1 bsize)
      ⟨sb1.nextId, 0⟩ [byte]) 1 := by
  have hblocks : blocksWrite
      (sb1.blocks ++ [⟨sb1.nextId, bsize, List.replicate bsize 0⟩])
      (⟨sb1.nextId, 0⟩ : Ptr) [byte] =
      sb1.blocks ++ [⟨sb1.nextId, bsize,
        listWrite (List.replicate bsize 0) 0 [byte]⟩] := by
    unfold blocksWrite
    rw [List.map_append]
    congr 1
    · conv_rhs => rw [← List.map_id sb1.blocks]
      apply List.map_congr_left
      intro b hb
      have hne : b.id ≠ (⟨sb1.nextId, 0⟩ : Ptr).blk :=
        Nat.ne_of_lt (hids b hb)
      rw [if_neg hne]
      rfl
    · simp
  rcases sb1 with ⟨blocks, pbase, pptr, epptr, eback, gptr, egptr, mne, mne2,
    mlg, ta, tf, tr, trs, mbs, mabs, nid⟩
  simp only at hblocks
  by_cases hne : mne = none
  · subst hne
    simp [create_memory_block, setp_pbump, producer_pbump, producer_setp,
      install_new_block, write_through, sync_egptr, hblocks]
  · simp [create_memory_block, setp_pbump, producer_pbump, producer_setp,
      install_new_block, write_through, sync_egptr, hblocks, hne]

/-- `overflow_a` from an invariant state: the invariant is preserved, at
most one byte is written, and on success that byte is appended to the
buffer. -/
theorem overflow_a_spec (sb : SB) (c : Int) (hInv : SBInv sb) :
    ∃ sb' r k, overflow_a sb c = (sb', r, k) ∧ SBInv sb' ∧
      buffer_bytes sb' = buffer_bytes sb ++
        (if k = 1 then [(c % 256).toNat] else []) ∧ k ≤ 1 := by
  by_cases hc : c = EOF
  · refine ⟨sb, 0, 0, ?_, hInv, by simp, by omega⟩
    simp [overflow_a, hc]
  · rcases hU : update_put_area sb with ⟨sb1, cur1, avail1⟩
    have hspec := update_put_area_spec sb hInv
    rw [hU] at hspec
    simp only at hspec
    obtain ⟨hInv1, hbuf1, hcur1, havail1, hblocks1, hgptr1, halloc1, hfreed1,
      hread1, hmin1, hmax1, hnid1, hlgp1, hunu1⟩ := hspec
    obtain ⟨lb1, hlast1, hpblk1, hpoff1, hpbase1, hepptr1⟩ := hInv1.put_area
    have hple : sb1.pptr.off ≤ sb1.epptr.off := by
      rw [hepptr1]; exact hpoff1
    have ha : avail1 = sb1.epptr.off - sb1.pptr.off := havail1
    simp only [overflow_a, if_neg hc, hU]
    by_cases ha0 : avail1 = 0
    · simp only [if_pos ha0]
      rcases hcl : clamped_block_size sb1 with _ | bsize
      · simp only [hcl]
        refine ⟨sb1, EOF, 0, rfl, hInv1, ?_, by omega⟩
        rw [hbuf1]; simp
      · simp only [hcl]
        have hids1 : ∀ b ∈ sb1.blocks, b.id < sb1.nextId := hInv1.ids_lt
        have heq := overflow_alloc_path_eq sb1 bsize ((c % 256).toNat) hids1
        simp only [create_memory_block] at heq ⊢
        rw [heq]
        have hfull : sb1.pptr.off = sb1.epptr.off := by omega
        have hbmin : sb1.m_minimum_block_size ≤ bsize :=
          clamped_block_size_min sb1 bsize hcl
        have hbpos : 0 < bsize := lt_of_lt_of_le hInv1.min_pos hbmin
        have hi := install_new_block_spec sb1 hInv1 bsize hbpos hfull
        obtain ⟨hInv3, hbuf3, hpptr3, hepptr3, hgptr3, hlgp3, halloc3,
          hfreed3, hread3, hreset3, hmin3, hmax3, hnid3, hblocks3⟩ := hi
        set sb3 := install_new_block sb1 bsize with hsb3
        have hfit3 : sb3.pptr.off + ([(c % 256).toNat] : List Nat).length ≤
            sb3.epptr.off := by
          rw [hpptr3, hepptr3]
          simp only [List.length_cons, List.length_nil]
          omega
        have hw := write_pbump_spec sb3 hInv3 [(c % 256).toNat] hfit3
        have h1 : ([(c % 256).toNat] : List Nat).length = 1 := rfl
        rw [h1] at hw
        rw [show (⟨sb1.nextId, 0⟩ : Ptr) = sb3.pptr from hpptr3.symm]
        obtain ⟨hInv4, hbuf4, hrest⟩ := hw
        refine ⟨_, 0, 1, rfl, hInv4, ?_, le_refl 1⟩
        rw [hbuf4, hbuf3, hbuf1]
        simp
    · simp only [if_neg ha0]
      have hfit : sb1.pptr.off + ([(c % 256).toNat] : List Nat).length ≤
          sb1.epptr.off := by
        simp only [List.length_cons, List.length_nil]
        omega
      have hw := write_pbump_spec sb1 hInv1 [(c % 256).toNat] hfit
      have h1 : ([(c % 256).toNat] : List Nat).length = 1 := rfl
      rw [h1, ← hcur1] at hw
      obtain ⟨hInv2, hbuf2, hpptr2, hepptr2, hgptr2, hlgp2, halloc2, hfreed2,
        hread2, hreset2, hmin2, hmax2, hnid2, hblocks2⟩ := hw
      refine ⟨_, 0, 1, rfl, hInv2, ?_, le_refl 1⟩
      rw [hbuf2, hbuf1]
      simp

/-! ## StreamBuf: the consumer loop of update_get_area -/

theorem sumSizes_cons (b : MemBlock) (bs : List MemBlock) :
    sumSizes (b :: bs) = b.blockSize + sumSizes bs := by
  simp [sumSizes]

theorem getLast?_drop_ne_nil {l : List MemBlock} {k : Nat}
    (h : l.drop k ≠ []) : (l.drop k).getLast? = l.getLast? := by
  conv_rhs => rw [← List.take_append_drop k l]
  rw [List.getLast?_append]
  cases hL : (l.drop k).getLast? with
  | none => exact absurd (List.getLast?_eq_none_iff.mp hL) h
  | some b => rfl

/-- In a chain of strictly increasing ids with at least two blocks, the
head's id is strictly below the last's. -/
theorem head_lt_last_of_multi {bs : List MemBlock} {hb lb : MemBlock}
    (hpw : bs.Pairwise (fun a b => a.id < b.id))
    (hhead : bs.head? = some hb) (hlast : bs.getLast? = some lb)
    (hmulti : 1 < bs.length) : hb.id < lb.id := by
  match bs, hmulti with
  | x :: y :: ys, _ =>
    have hx : x = hb := by simpa using hhead
    subst hx
    rw [List.pairwise_cons] at hpw
    rw [List.getLast?_cons_cons] at hlast
    exact hpw.1 lb (mem_of_getLast?_eq hlast)

/-- The `update_get_area` inner loop: from a well-formed chain it
terminates, preserves the unread-byte view and the put-side fields,
frees exactly the blocks it drops, and returns a cursor with the
readable span at the head of the remaining chain; `available`
exhausts the view exactly when the returned flag is false. -/
theorem uga_loop_spec (fuel : Nat) :
    ∀ (sb : SB) (cur next : Ptr),
    (∀ b ∈ sb.blocks, 0 < b.blockSize) →
    (∀ b ∈ sb.blocks, b.data.length = b.blockSize) →
    sb.blocks.Pairwise (fun a b => a.id < b.id) →
    (∃ lb, sb.blocks.getLast? = some lb ∧ next.blk = lb.id ∧
      next.off ≤ lb.blockSize) →
    (∃ hbk, sb.blocks.head? = some hbk ∧ cur.blk = hbk.id ∧
      cur.off ≤ hbk.blockSize) →
    (cur.blk = next.blk → cur.off ≤ next.off) →
    sb.blocks.length + 1 ≤ fuel →
    ∃ sb' cur' avail flag,
      uga_loop fuel sb cur next = some (sb', cur', avail, flag) ∧
      sb'.gptr = cur' ∧
      sb'.pbase = sb.pbase ∧ sb'.pptr = sb.pptr ∧ sb'.epptr = sb.epptr ∧
      sb'.m_next_egptr = sb.m_next_egptr ∧
      sb'.m_next_egptr2 = sb.m_next_egptr2 ∧
      sb'.m_total_read = sb.m_total_read ∧
      sb'.m_total_allocated = sb.m_total_allocated ∧
      sb'.m_total_reset = sb.m_total_reset ∧
      sb'.m_minimum_block_size = sb.m_minimum_block_size ∧
      sb'.m_max_allocated_block_size = sb.m_max_allocated_block_size ∧
      sb'.nextId = sb.nextId ∧
      (∃ k, sb'.blocks = sb.blocks.drop k) ∧ sb'.blocks ≠ [] ∧
      sb'.m_total_freed + sumSizes sb'.blocks =
        sb.m_total_freed + sumSizes sb.blocks ∧
      ((sb'.m_last_gptr = sb.m_last_gptr ∧ cur' = cur) ∨
        (sb'.m_last_gptr = some cur' ∧ cur'.off = 0)) ∧
      chain_data sb'.blocks cur'.off next =
        chain_data sb.blocks cur.off next ∧
      avail ≤ (chain_data sb'.blocks cur'.off next).length ∧
      (∃ hb', sb'.blocks.head? = some hb' ∧ cur'.blk = hb'.id ∧
        cur'.off + avail ≤ hb'.blockSize ∧
        (sb'.blocks.length = 1 → next.blk = hb'.id ∧
          cur'.off + avail = next.off) ∧
        (1 < sb'.blocks.length → next.blk ≠ hb'.id ∧
          cur'.off + avail = hb'.blockSize) ∧
        (flag = false →
          (chain_data sb'.blocks cur'.off next).length = avail) ∧
        (flag = true → 1 < sb'.blocks.length)) := by
  induction fuel with
  | zero =>
    intro sb cur next _ _ _ _ _ _ hfuel
    omega
  | succ fuel ih =>
    intro sb cur next hsize hdata hpw hput hcur horder hfuel
    obtain ⟨lb, hlast, hnblk, hnoff⟩ := hput
    obtain ⟨hbk, hhead, hcblk, hcoff⟩ := hcur
    obtain ⟨t, hbs⟩ : ∃ t, sb.blocks = hbk :: t := by
      cases hbl : sb.blocks with
      | nil => rw [hbl] at hhead; simp at hhead
      | cons a l =>
        rw [hbl] at hhead
        simp only [List.head?_cons, Option.some.injEq] at hhead
        exact ⟨l, by rw [hhead]⟩
    have hdk : hbk.data.length = hbk.blockSize := hdata hbk (by rw [hbs]; simp)
    have hsingle_of_case1 : next.blk = hbk.id → t = [] := by
      intro he
      cases t with
      | nil => rfl
      | cons y ys =>
        exfalso
        have hm : 1 < sb.blocks.length := by
          rw [hbs]; simp only [List.length_cons]; omega
        have hlt := head_lt_last_of_multi hpw hhead hlast hm
        omega
    simp only [uga_loop, hbs]
    cases hd1 : decide (next.blk = hbk.id ∧ next.off ≤ hbk.blockSize) with
    | true =>
      have hc1 := of_decide_eq_true hd1
      have ht : t = [] := hsingle_of_case1 hc1.1
      subst ht
      have hlb : hbk = lb := by rw [hbs] at hlast; simpa using hlast
      have hcn : cur.off ≤ next.off := horder (by rw [hcblk, hc1.1])
      have hchain : chain_data sb.blocks cur.off next =
          listSlice hbk.data cur.off next.off := by
        rw [hbs, chain_data_cons, if_pos hc1.1]
      have hclen : (chain_data sb.blocks cur.off next).length =
          next.off - cur.off := by
        rw [hchain, listSlice_len, hdk]
        omega
      simp only [hd1, Bool.not_true, Bool.and_false, if_true, ite_self]
      refine ⟨consumer_setg sb ⟨hbk.id, 0⟩ cur ⟨hbk.id, next.off⟩, cur,
        next.off - cur.off, false, rfl, rfl, rfl, rfl, rfl, rfl, rfl, rfl,
        rfl, rfl, rfl, rfl, rfl, ⟨0, ?_⟩, ?_, ?_, Or.inl ⟨rfl, rfl⟩, ?_,
        ?_, ?_⟩
      · show sb.blocks = List.drop 0 [hbk]
        rw [List.drop_zero]
        exact hbs
      · show sb.blocks ≠ []
        rw [hbs]; simp
      · show sb.m_total_freed + sumSizes sb.blocks =
          sb.m_total_freed + sumSizes [hbk]
        rw [hbs]
      · show chain_data sb.blocks cur.off next = chain_data [hbk] cur.off next
        rw [hbs]
      · show next.off - cur.off ≤ (chain_data sb.blocks cur.off next).length
        omega
      · refine ⟨hbk, ?_, hcblk, by omega, fun _ => ⟨hc1.1, by omega⟩,
          ?_, fun _ => hclen, by simp⟩
        · show sb.blocks.head? = some hbk
          rw [hbs]; rfl
        · intro hm
          exfalso
          have : sb.blocks.length = 1 := by rw [hbs]; rfl
          have hm' : (1 : Nat) < sb.blocks.length := hm
          omega
    | false =>
      have hc1 := of_decide_eq_false hd1
      have hne : next.blk ≠ hbk.id := by
        intro he
        have ht := hsingle_of_case1 he
        subst ht
        have hlb : hbk = lb := by rw [hbs] at hlast; simpa using hlast
        exact hc1 ⟨he, by rw [hlb]; exact hnoff⟩
      have htne : t ≠ [] := by
        intro ht
        subst ht
        have hlb : hbk = lb := by rw [hbs] at hlast; simpa using hlast
        exact hne (by rw [hnblk, ← hlb])
      have hchain : chain_data sb.blocks cur.off next =
          listSlice hbk.data cur.off hbk.blockSize ++
            chain_data t 0 next := by
        rw [hbs, chain_data_cons, if_neg hne]
      simp only [hd1, Bool.not_false, Bool.and_true, Bool.false_eq_true,
        if_false, eq_self_iff_true, decide_True]
      by_cases hav0 : hbk.blockSize - cur.off ≠ 0
      · rw [if_pos hav0]
        refine ⟨consumer_setg sb ⟨hbk.id, 0⟩ cur ⟨hbk.id, hbk.blockSize⟩,
          cur, hbk.blockSize - cur.off, true, rfl, rfl, rfl, rfl, rfl, rfl,
          rfl, rfl, rfl, rfl, rfl, rfl, rfl, ⟨0, ?_⟩, ?_, ?_,
          Or.inl ⟨rfl, rfl⟩, ?_, ?_, ?_⟩
        · show sb.blocks = List.drop 0 (hbk :: t)
          rw [List.drop_zero]
          exact hbs
        · show sb.blocks ≠ []
          rw [hbs]; simp
        · show sb.m_total_freed + sumSizes sb.blocks =
            sb.m_total_freed + sumSizes (hbk :: t)
          rw [hbs]
        · show chain_data sb.blocks cur.off next =
            chain_data (hbk :: t) cur.off next
          rw [hbs]
        · show hbk.blockSize - cur.off ≤
            (chain_data sb.blocks cur.off next).length
          rw [hchain]
          simp only [List.length_append]
          rw [listSlice_len, hdk]
          omega
        · have hm : 1 < sb.blocks.length := by
            rw [hbs]
            simp only [List.length_cons]
            have := List.length_pos.mpr htne
            omega
          refine ⟨hbk, ?_, hcblk, by omega, ?_, fun _ => ⟨hne, by omega⟩,
            by simp, fun _ => hm⟩
          · show sb.blocks.head? = some hbk
            rw [hbs]; rfl
          · intro h1
            exfalso
            have h1' : sb.blocks.length = 1 := h1
            omega
      · rw [if_neg hav0]
        have hcur_off : cur.off = hbk.blockSize := by omega
        cases t with
        | nil => exact absurd rfl htne
        | cons nb rest' =>
          have hpw' : (nb :: rest').Pairwise (fun a b => a.id < b.id) := by
            rw [hbs] at hpw
            exact (List.pairwise_cons.mp hpw).2
          have hlast' : (nb :: rest').getLast? = some lb := by
            rw [hbs, List.getLast?_cons_cons] at hlast
            exact hlast
          have hmem : ∀ b ∈ nb :: rest', b ∈ sb.blocks := by
            intro b hb
            rw [hbs]
            exact List.mem_cons_of_mem _ hb
          have hih := ih
            { sb with
                blocks := nb :: rest'
                m_last_gptr := some ⟨nb.id, 0⟩
                m_total_freed := sb.m_total_freed + hbk.blockSize }
            ⟨nb.id, 0⟩ next
            (fun b hb => hsize b (hmem b hb))
            (fun b hb => hdata b (hmem b hb))
            hpw' ⟨lb, hlast', hnblk, hnoff⟩
            ⟨nb, rfl, rfl, Nat.zero_le _⟩
            (fun _ => Nat.zero_le _)
            (by
              have hf : sb.blocks.length + 1 ≤ fuel + 1 := hfuel
              rw [hbs] at hf
              simp only [List.length_cons] at hf ⊢
              omega)
          obtain ⟨sb', cur', avail, flag, hrun, hgptr', hpbase', hpptr',
            hepptr', hmne', hmne2', hread', halloc', hreset', hmin', hmax',
            hnid', ⟨k, hk⟩, hnenil', hfreed', hlastg', hchain', havle',
            hhb'⟩ := hih
          refine ⟨sb', cur', avail, flag, hrun, hgptr', hpbase', hpptr',
            hepptr', hmne', hmne2', hread', halloc', hreset', hmin', hmax',
            hnid', ?_, hnenil', ?_, ?_, ?_, havle', hhb'⟩
          · refine ⟨k + 1, ?_⟩
            rw [List.drop_succ_cons]
            exact hk
          · have hf2 : sb'.m_total_freed + sumSizes sb'.blocks =
                sb.m_total_freed + hbk.blockSize + sumSizes (nb :: rest') :=
              hfreed'
            rw [sumSizes_cons]
            omega
          · rcases hlastg' with ⟨h1, h2⟩ | ⟨h1, h2⟩
            · refine Or.inr ⟨?_, by rw [h2]⟩
              rw [h2]
              exact h1
            · exact Or.inr ⟨h1, h2⟩
          · rw [hcur_off,
              chain_data_drop_head hbk (nb :: rest') next hne]
            exact hchain'

/-- The common part of `update_get_area`: calling the inner loop on a
state `R` that agrees with `sb` outside `m_last_gptr`/`m_next_egptr`,
with the handshake already pointing at the producer cursor.  The
invariant (with `d` uncounted consumed bytes) and the buffer survive,
and the returned span describes the head of the chain. -/
theorem uga_call_spec (sb R : SB) (cur_in : Ptr) (d : Nat)
    (hInv : SBInv { sb with m_total_read := sb.m_total_read + d })
    (hRb : R.blocks = sb.blocks) (hRpptr : R.pptr = sb.pptr)
    (hRepptr : R.epptr = sb.epptr) (hRpbase : R.pbase = sb.pbase)
    (hRne : R.m_next_egptr = some sb.pptr)
    (hRne2 : R.m_next_egptr2 = sb.m_next_egptr2)
    (hRread : R.m_total_read = sb.m_total_read)
    (hRalloc : R.m_total_allocated = sb.m_total_allocated)
    (hRfreed : R.m_total_freed = sb.m_total_freed)
    (hRreset : R.m_total_reset = sb.m_total_reset)
    (hRmin : R.m_minimum_block_size = sb.m_minimum_block_size)
    (hRmax : R.m_max_allocated_block_size = sb.m_max_allocated_block_size)
    (hRnid : R.nextId = sb.nextId)
    (hcur : ∃ hbk, sb.blocks.head? = some hbk ∧ cur_in.blk = hbk.id ∧
      cur_in.off ≤ hbk.blockSize)
    (horder : cur_in.blk = sb.pptr.blk → cur_in.off ≤ sb.pptr.off)
    (hbufeq : buffer_bytes sb = chain_data sb.blocks cur_in.off sb.pptr)
    (hlastG : ∀ l, R.m_last_gptr = some l → l.blk ≤ cur_in.blk ∧
      (l.blk = cur_in.blk → l.off ≤ cur_in.off)) :
    ∃ sb' cur' avail flag,
      uga_loop (sb.blocks.length + 1) R cur_in sb.pptr =
        some (sb', cur', avail, flag) ∧
      SBInv { sb' with m_total_read := sb'.m_total_read + d } ∧
      sb'.gptr = cur' ∧
      buffer_bytes sb' = buffer_bytes sb ∧
      avail ≤ (buffer_bytes sb').length ∧
      sb'.pptr = sb.pptr ∧ sb'.epptr = sb.epptr ∧ sb'.pbase = sb.pbase ∧
      sb'.m_next_egptr = some sb.pptr ∧
      sb'.m_total_read = sb.m_total_read ∧
      sb'.m_total_allocated = sb.m_total_allocated ∧
      sb'.m_total_reset = sb.m_total_reset ∧
      sb'.m_minimum_block_size = sb.m_minimum_block_size ∧
      sb'.m_max_allocated_block_size = sb.m_max_allocated_block_size ∧
      sb'.nextId = sb.nextId ∧
      sb'.blocks.length ≤ sb.blocks.length ∧
      (∃ hb', sb'.blocks.head? = some hb' ∧ cur'.blk = hb'.id ∧
        cur'.off + avail ≤ hb'.blockSize ∧
        (sb'.blocks.length = 1 → sb.pptr.blk = hb'.id ∧
          cur'.off + avail = sb.pptr.off) ∧
        (1 < sb'.blocks.length → sb.pptr.blk ≠ hb'.id ∧
          cur'.off + avail = hb'.blockSize)) ∧
      (flag = false → (buffer_bytes sb').length = avail) ∧
      (flag = true → 1 < sb'.blocks.length) := by
  have hsize : ∀ b ∈ sb.blocks, 0 < b.blockSize := hInv.size_pos
  have hdata : ∀ b ∈ sb.blocks, b.data.length = b.blockSize := hInv.data_len
  have hpw : sb.blocks.Pairwise (fun a b => a.id < b.id) := hInv.ids_pw
  have hids : ∀ b ∈ sb.blocks, b.id < sb.nextId := hInv.ids_lt
  obtain ⟨lb, hlast, hpblk, hpoff, hpbase, hepptr⟩ :
      ∃ lb, sb.blocks.getLast? = some lb ∧ sb.pptr.blk = lb.id ∧
        sb.pptr.off ≤ lb.blockSize ∧ sb.pbase = ⟨lb.id, 0⟩ ∧
        sb.epptr = ⟨lb.id, lb.blockSize⟩ := hInv.put_area
  have hsync2 : sb.m_next_egptr2 = sb.pptr := hInv.sync2
  have hcount : sb.m_total_allocated + sb.m_total_reset =
      sb.m_total_read + d + (buffer_bytes sb).length +
        unused_in_last_block sb := hInv.count_eq
  have halloc_eq : sb.m_total_allocated =
      sb.m_total_freed + sumSizes sb.blocks := hInv.alloc_eq
  obtain ⟨sb', cur', avail, flag, hrun, hgptr', hpbase', hpptr', hepptr',
    hmne', hmne2', hread', halloc', hreset', hmin', hmax', hnid',
    ⟨k, hk⟩, hnenil', hfreed', hlastg', hchain', havle',
    hb', hhead', hcblk', hcfit', hsingle', hmulti', hflagF', hflagT'⟩ :=
    uga_loop_spec (sb.blocks.length + 1) R cur_in sb.pptr
      (by rw [hRb]; exact hsize)
      (by rw [hRb]; exact hdata)
      (by rw [hRb]; exact hpw)
      ⟨lb, by rw [hRb]; exact hlast, hpblk, hpoff⟩
      (by rw [hRb]; exact hcur)
      horder
      (by rw [hRb])
  rw [hRb] at hk hfreed' hchain'
  rw [hRfreed] at hfreed'
  have hknil : sb.blocks.drop k ≠ [] := by rw [← hk]; exact hnenil'
  have hbuf' : buffer_bytes sb' = buffer_bytes sb := by
    rw [hbufeq]
    unfold buffer_bytes
    rw [if_neg (show sb'.m_next_egptr ≠ none by
      rw [hmne', hRne]; exact fun hc => by cases hc)]
    rw [hgptr', hpptr', hRpptr, hchain']
  have hdropsub : ∀ b ∈ sb'.blocks, b ∈ sb.blocks := by
    intro b hb
    rw [hk] at hb
    exact List.drop_subset k sb.blocks hb
  have hlast'2 : sb'.blocks.getLast? = some lb := by
    rw [hk, getLast?_drop_ne_nil hknil]
    exact hlast
  refine ⟨sb', cur', avail, flag, hrun, ?_, hgptr', hbuf', ?_,
    by rw [hpptr', hRpptr], by rw [hepptr', hRepptr],
    by rw [hpbase', hRpbase], by rw [hmne', hRne],
    by rw [hread', hRread], by rw [halloc', hRalloc],
    by rw [hreset', hRreset], by rw [hmin', hRmin],
    by rw [hmax', hRmax], by rw [hnid', hRnid],
    by rw [hk, List.length_drop]; omega,
    ⟨hb', hhead', hcblk', hcfit', hsingle', hmulti'⟩,
    ?_, hflagT'⟩
  · -- the preserved invariant
    refine ⟨?_, ?_, ?_, ?_, ?_, ?_, ?_, ?_, ?_, ?_, ?_, ?_, ?_, ?_⟩
    · show 0 < sb'.m_minimum_block_size
      rw [hmin', hRmin]
      exact hInv.min_pos
    · exact fun b hb => hsize b (hdropsub b hb)
    · exact fun b hb => hdata b (hdropsub b hb)
    · show sb'.blocks.Pairwise (fun a b => a.id < b.id)
      rw [hk]
      exact List.Pairwise.sublist (List.drop_sublist k sb.blocks) hpw
    · intro b hb
      show b.id < sb'.nextId
      rw [hnid', hRnid]
      exact hids b (hdropsub b hb)
    · exact ⟨lb, hlast'2,
        by rw [hpptr', hRpptr]; exact hpblk,
        by rw [hpptr', hRpptr]; exact hpoff,
        by rw [hpbase', hRpbase]; exact hpbase,
        by rw [hepptr', hRepptr]; exact hepptr⟩
    · refine ⟨hb', hhead', by rw [hgptr']; exact hcblk', ?_⟩
      show sb'.gptr.off ≤ hb'.blockSize
      rw [hgptr']
      omega
    · show sb'.m_next_egptr2 = sb'.pptr
      rw [hmne2', hRne2, hpptr', hRpptr]
      exact hsync2
    · intro p hp
      have hp2 : (some sb.pptr : Option Ptr) = some p := by
        rw [← hRne, ← hmne']
        exact hp
      show p = sb'.pptr
      rw [hpptr', hRpptr]
      exact (Option.some.inj hp2).symm
    · intro _ hblk
      show sb'.gptr.off ≤ sb'.pptr.off
      have hblk2 : cur'.blk = sb.pptr.blk := by
        rw [← hgptr', ← hRpptr, ← hpptr']
        exact hblk
      rw [hgptr', hpptr', hRpptr]
      rcases Nat.lt_or_ge 1 sb'.blocks.length with hm | hm
      · exfalso
        exact (hmulti' hm).1 (by rw [← hblk2]; exact hcblk')
      · have h1 : sb'.blocks.length = 1 := by
          have := List.length_pos.mpr hnenil'
          omega
        have hs : cur'.off + avail = sb.pptr.off := (hsingle' h1).2
        omega
    · intro l hl
      show l.blk ≤ sb'.gptr.blk
      rcases hlastg' with ⟨h1, h2⟩ | ⟨h1, h2⟩
      · rw [hgptr', h2]
        exact (hlastG l (by rw [← h1]; exact hl)).1
      · rw [h1] at hl
        have hlc : l = cur' := (Option.some.inj hl).symm
        rw [hlc, hgptr']
    · intro l hl hblk
      show l.off ≤ sb'.gptr.off
      rcases hlastg' with ⟨h1, h2⟩ | ⟨h1, h2⟩
      · have hblk2 : l.blk = cur_in.blk := by
          rw [← h2, ← hgptr']
          exact hblk
        rw [hgptr', h2]
        exact (hlastG l (by rw [← h1]; exact hl)).2 hblk2
      · rw [h1] at hl
        have hlc : l = cur' := (Option.some.inj hl).symm
        rw [hlc, hgptr']
    · show sb'.m_total_allocated = sb'.m_total_freed + sumSizes sb'.blocks
      rw [halloc', hRalloc]
      omega
    · show sb'.m_total_allocated + sb'.m_total_reset =
        sb'.m_total_read + d + (buffer_bytes sb').length +
          unused_in_last_block sb'
      have hun : unused_in_last_block sb' = unused_in_last_block sb := by
        unfold unused_in_last_block
        rw [hpptr', hRpptr, hepptr', hRepptr]
      rw [halloc', hRalloc, hreset', hRreset, hread', hRread, hbuf', hun]
      exact hcount
  · rw [hbuf', hbufeq, ← hchain']
    exact havle'
  · intro hf
    rw [hbuf', hbufeq, ← hchain']
    exact hflagF' hf

/-- `StreamBufConsumer::update_get_area` from an invariant state with
`d` consumed-but-uncounted bytes: it succeeds, preserves the invariant
and the buffer, leaves `m_next_egptr` pointing at the producer cursor
(completing a pending reset handshake if there was one), and returns
the readable span at the head of the chain; `available` exhausts the
buffer exactly when the returned flag is false. -/
theorem update_get_area_spec (sb : SB) (d : Nat)
    (hInv : SBInv { sb with m_total_read := sb.m_total_read + d }) :
    ∃ sb' cur' avail flag,
      update_get_area sb = some (sb', cur', avail, flag) ∧
      SBInv { sb' with m_total_read := sb'.m_total_read + d } ∧
      sb'.gptr = cur' ∧
      buffer_bytes sb' = buffer_bytes sb ∧
      avail ≤ (buffer_bytes sb').length ∧
      sb'.pptr = sb.pptr ∧ sb'.epptr = sb.epptr ∧ sb'.pbase = sb.pbase ∧
      sb'.m_next_egptr = some sb.pptr ∧
      sb'.m_total_read = sb.m_total_read ∧
      sb'.m_total_allocated = sb.m_total_allocated ∧
      sb'.m_total_reset = sb.m_total_reset ∧
      sb'.m_minimum_block_size = sb.m_minimum_block_size ∧
      sb'.m_max_allocated_block_size = sb.m_max_allocated_block_size ∧
      sb'.nextId = sb.nextId ∧
      sb'.blocks.length ≤ sb.blocks.length ∧
      (∃ hb', sb'.blocks.head? = some hb' ∧ cur'.blk = hb'.id ∧
        cur'.off + avail ≤ hb'.blockSize ∧
        (sb'.blocks.length = 1 → sb.pptr.blk = hb'.id ∧
          cur'.off + avail = sb.pptr.off) ∧
        (1 < sb'.blocks.length → sb.pptr.blk ≠ hb'.id ∧
          cur'.off + avail = hb'.blockSize)) ∧
      (flag = false → (buffer_bytes sb').length = avail) ∧
      (flag = true → 1 < sb'.blocks.length) := by
  obtain ⟨hbk, hhead, hgblk, hgoff⟩ :
      ∃ hb, sb.blocks.head? = some hb ∧ sb.gptr.blk = hb.id ∧
        sb.gptr.off ≤ hb.blockSize := hInv.get_area
  obtain ⟨t, hbs⟩ : ∃ t, sb.blocks = hbk :: t := by
    cases hbl : sb.blocks with
    | nil => rw [hbl] at hhead; simp at hhead
    | cons a l =>
      rw [hbl] at hhead
      simp only [List.head?_cons, Option.some.injEq] at hhead
      exact ⟨l, by rw [hhead]⟩
  have hsync2 : sb.m_next_egptr2 = sb.pptr := hInv.sync2
  cases hmne : sb.m_next_egptr with
  | some nep =>
    have hnep : nep = sb.pptr := hInv.syncA nep hmne
    subst hnep
    have hred : update_get_area sb =
        uga_loop (sb.blocks.length + 1) sb sb.gptr sb.pptr := by
      simp only [update_get_area, hbs, hmne]
    obtain ⟨sb', cur', avail, flag, hrun, hrest⟩ :=
      uga_call_spec sb sb sb.gptr d hInv rfl rfl rfl rfl hmne rfl rfl rfl
        rfl rfl rfl rfl rfl
        ⟨hbk, hhead, hgblk, hgoff⟩
        (fun h => hInv.orderA (by rw [hmne]; exact fun hc => by cases hc) h)
        (by unfold buffer_bytes; rw [hmne]; simp)
        (fun l hl => ⟨hInv.lastg_blk l hl,
          fun hb => hInv.lastg_off l hl hb⟩)
    exact ⟨sb', cur', avail, flag, by rw [hred]; exact hrun, hrest⟩
  | none =>
    have hred : update_get_area sb =
        uga_loop (sb.blocks.length + 1)
          { sb with
              m_last_gptr := some ⟨hbk.id, 0⟩
              m_next_egptr := some sb.pptr }
          ⟨hbk.id, 0⟩ sb.pptr := by
      simp only [update_get_area, hbs, hmne, hsync2]
    obtain ⟨sb', cur', avail, flag, hrun, hrest⟩ :=
      uga_call_spec sb
        { sb with
            m_last_gptr := some ⟨hbk.id, 0⟩
            m_next_egptr := some sb.pptr }
        ⟨hbk.id, 0⟩ d hInv rfl rfl rfl rfl rfl rfl rfl rfl rfl rfl rfl
        rfl rfl
        ⟨hbk, hhead, rfl, Nat.zero_le _⟩
        (fun _ => Nat.zero_le _)
        (by unfold buffer_bytes; rw [hmne]; simp)
        (by
          intro l hl
          have hleq : l = ⟨hbk.id, 0⟩ := (Option.some.inj hl).symm
          subst hleq
          exact ⟨le_refl _, fun _ => le_refl _⟩)
    exact ⟨sb', cur', avail, flag, by rw [hred]; exact hrun, hrest⟩

theorem blocksRead_zero (bs : List MemBlock) (p : Ptr) :
    blocksRead bs p 0 = [] := by
  unfold blocksRead
  cases bs.find? (fun b => b.id == p.blk) with
  | none => rfl
  | some b => simpa using listSlice_self b.data p.off

theorem head_two {bs : List MemBlock} {hb : MemBlock}
    (hhead : bs.head? = some hb) (hlen : 1 < bs.length) :
    ∃ nb rest, bs = hb :: nb :: rest := by
  match bs, hlen with
  | x :: y :: ys, _ =>
    have hx : x = hb := by simpa using hhead
    subst hx
    exact ⟨y, ys, rfl⟩

/-- Advancing the get area to the next memory block (the `xsgetn_a`
path, StreamBuf.cxx lines 461-480): when the head block is fully
consumed the invariant is preserved, the unread view is unchanged and
the freed counter absorbs the dropped block. -/
theorem advance_block_spec (S : SB) (e : Nat) (blk nb : MemBlock)
    (rest : List MemBlock)
    (hInv : SBInv { S with m_total_read := S.m_total_read + e })
    (hbs : S.blocks = blk :: nb :: rest)
    (hgoff : S.gptr.off = blk.blockSize)
    (hpne : S.pptr.blk ≠ blk.id)
    (hmne : S.m_next_egptr ≠ none) :
    SBInv { S with
        blocks := nb :: rest
        eback := ⟨nb.id, 0⟩
        gptr := ⟨nb.id, 0⟩
        egptr := ⟨nb.id, 0⟩
        m_last_gptr := some ⟨nb.id, 0⟩
        m_total_freed := S.m_total_freed + blk.blockSize
        m_total_read := S.m_total_read + e } ∧
    buffer_bytes { S with
        blocks := nb :: rest
        eback := ⟨nb.id, 0⟩
        gptr := ⟨nb.id, 0⟩
        egptr := ⟨nb.id, 0⟩
        m_last_gptr := some ⟨nb.id, 0⟩
        m_total_freed := S.m_total_freed + blk.blockSize } =
      buffer_bytes S := by
  have hmemtail : ∀ b ∈ nb :: rest, b ∈ S.blocks := by
    intro b hb
    rw [hbs]
    exact List.mem_cons_of_mem _ hb
  obtain ⟨lb, hlast, hpblk, hpoff, hpbase, hepptr⟩ :
      ∃ lb, S.blocks.getLast? = some lb ∧ S.pptr.blk = lb.id ∧
        S.pptr.off ≤ lb.blockSize ∧ S.pbase = ⟨lb.id, 0⟩ ∧
        S.epptr = ⟨lb.id, lb.blockSize⟩ := hInv.put_area
  have hlast' : (nb :: rest).getLast? = some lb := by
    rw [hbs, List.getLast?_cons_cons] at hlast
    exact hlast
  have hbuf : buffer_bytes { S with
      blocks := nb :: rest
      eback := (⟨nb.id, 0⟩ : Ptr)
      gptr := (⟨nb.id, 0⟩ : Ptr)
      egptr := (⟨nb.id, 0⟩ : Ptr)
      m_last_gptr := some (⟨nb.id, 0⟩ : Ptr)
      m_total_freed := S.m_total_freed + blk.blockSize } =
      buffer_bytes S := by
    unfold buffer_bytes
    simp only
    rw [if_neg hmne, if_neg hmne, hgoff, hbs,
      chain_data_drop_head blk (nb :: rest) S.pptr hpne]
  refine ⟨?_, hbuf⟩
  have hpw : S.blocks.Pairwise (fun a b => a.id < b.id) := hInv.ids_pw
  refine ⟨hInv.min_pos, fun b hb => hInv.size_pos b (hmemtail b hb),
    fun b hb => hInv.data_len b (hmemtail b hb), ?_,
    fun b hb => hInv.ids_lt b (hmemtail b hb),
    ⟨lb, hlast', hpblk, hpoff, hpbase, hepptr⟩,
    ⟨nb, rfl, rfl, Nat.zero_le _⟩, hInv.sync2, hInv.syncA,
    fun _ _ => Nat.zero_le _, ?_, ?_, ?_, ?_⟩
  · show (nb :: rest).Pairwise (fun a b => a.id < b.id)
    rw [hbs] at hpw
    exact (List.pairwise_cons.mp hpw).2
  · intro l hl
    have : l = ⟨nb.id, 0⟩ := (Option.some.inj hl).symm
    rw [this]
  · intro l hl _
    have : l = ⟨nb.id, 0⟩ := (Option.some.inj hl).symm
    rw [this]
  · show S.m_total_allocated =
      S.m_total_freed + blk.blockSize + sumSizes (nb :: rest)
    have h1 : S.m_total_allocated = S.m_total_freed + sumSizes S.blocks :=
      hInv.alloc_eq
    rw [hbs, sumSizes_cons] at h1
    omega
  · show S.m_total_allocated + S.m_total_reset =
      S.m_total_read + e + (buffer_bytes { S with
        blocks := nb :: rest
        eback := (⟨nb.id, 0⟩ : Ptr)
        gptr := (⟨nb.id, 0⟩ : Ptr)
        egptr := (⟨nb.id, 0⟩ : Ptr)
        m_last_gptr := some (⟨nb.id, 0⟩ : Ptr)
        m_total_freed := S.m_total_freed + blk.blockSize }).length +
      (S.epptr.off - S.pptr.off)
    rw [hbuf]
    exact hInv.count_eq

/-- One unfolding of the `xsgetn_a` loop in the non-trivial case, with
the `update_get_area` result destructured. -/
theorem xsgetn_loop_succ (fuel : Nat) (sb : SB) (remaining : Nat)
    (acc : List Nat) (sb1 : SB) (cur1 : Ptr) (avail1 : Nat) (flag1 : Bool)
    (hu : update_get_area sb = some (sb1, cur1, avail1, flag1))
    (hrem : ¬remaining = 0) :
    xsgetn_loop (fuel + 1) sb remaining acc =
      (let len := if avail1 ≠ 0 then min avail1 remaining else 0
       let bytes := blocksRead sb1.blocks cur1 len
       let sb := if avail1 ≠ 0 then consumer_gbump sb1 len else sb1
       let acc := acc ++ bytes
       let remaining := remaining - len
       let available := avail1 - len
       if !flag1 then
         let sb :=
           if available = 0 then
             store_last_gptr sb ⟨cur1.blk, cur1.off + len⟩
           else sb
         some (sb, acc)
       else if available = 0 then
         match sb.blocks with
         | blk :: nb :: rest =>
           let start : Ptr := ⟨nb.id, 0⟩
           let sb := { sb with blocks := nb :: rest }
           let sb := consumer_setg sb start start start
           let sb := store_last_gptr sb start
           let sb := { sb with
             m_total_freed := sb.m_total_freed + blk.blockSize }
           xsgetn_loop fuel sb remaining acc
         | _ => none
       else
         xsgetn_loop fuel sb remaining acc) := by
  simp only [xsgetn_loop, hu, if_neg hrem]

/-- The loop of `xsgetn_a`: with sufficient fuel it terminates having
moved exactly `min remaining |buffer|` bytes from the front of the
buffer into the accumulator, preserving the invariant (with the bytes
consumed so far not yet added to `m_total_read`). -/
theorem xsgetn_loop_spec (fuel : Nat) :
    ∀ (sb : SB) (remaining : Nat) (acc : List Nat) (d : Nat),
    SBInv { sb with m_total_read := sb.m_total_read + d } →
    remaining + sb.blocks.length + 1 ≤ fuel →
    ∃ sb' out, xsgetn_loop fuel sb remaining acc = some (sb', acc ++ out) ∧
      SBInv { sb' with
        m_total_read := sb'.m_total_read + (d + out.length) } ∧
      out ++ buffer_bytes sb' = buffer_bytes sb ∧
      out.length = min remaining (buffer_bytes sb).length ∧
      sb'.m_total_read = sb.m_total_read ∧
      sb'.m_total_allocated = sb.m_total_allocated ∧
      sb'.m_total_reset = sb.m_total_reset ∧
      sb'.m_minimum_block_size = sb.m_minimum_block_size ∧
      sb'.m_max_allocated_block_size = sb.m_max_allocated_block_size := by
  induction fuel with
  | zero =>
    intro sb remaining acc d _ hfuel
    omega
  | succ fuel ih =>
    intro sb remaining acc d hInv hfuel
    by_cases hrem : remaining = 0
    · subst hrem
      refine ⟨sb, [], ?_, by simpa using hInv, by simp, by simp, rfl, rfl,
        rfl, rfl, rfl⟩
      simp [xsgetn_loop]
    · obtain ⟨sb1, cur1, avail1, flag1, hu, hInv1, hgptr1, hbuf1, havle1,
        hpptr1, hepptr1, hpbase1, hmne1, hread1, halloc1, hreset1, hmin1,
        hmax1, hnid1, hblen1, ⟨hb1, hhead1, hcblk1, hcfit1, hsingle1,
        hmulti1⟩, hflagF1, hflagT1⟩ := update_get_area_spec sb d hInv
      rw [xsgetn_loop_succ fuel sb remaining acc sb1 cur1 avail1 flag1 hu
        hrem]
      have hblen : (buffer_bytes sb).length = (buffer_bytes sb1).length :=
        (congrArg List.length hbuf1).symm
      have hmnenn : sb1.m_next_egptr ≠ none := by
        rw [hmne1]; exact fun hc => by cases hc
      by_cases hav : avail1 = 0
      · subst hav
        simp only [ne_eq, not_true_eq_false, if_false, Nat.sub_zero,
          Nat.zero_sub, blocksRead_zero, List.append_nil, reduceIte]
        cases flag1 with
        | false =>
          simp only [Bool.not_false, reduceIte]
          have hlb1 : (buffer_bytes sb1).length = 0 := hflagF1 rfl
          have hlb0 : (buffer_bytes sb).length = 0 := by
            rw [hblen]; exact hlb1
          refine ⟨store_last_gptr sb1 ⟨cur1.blk, cur1.off + 0⟩, [],
            by simp, ?_, by simp only [List.nil_append]; exact hbuf1,
            by rw [hlb0]; simp, hread1, halloc1, hreset1, hmin1, hmax1⟩
          refine ⟨hInv1.min_pos, hInv1.size_pos, hInv1.data_len,
            hInv1.ids_pw, hInv1.ids_lt, hInv1.put_area, hInv1.get_area,
            hInv1.sync2, hInv1.syncA, hInv1.orderA, ?_, ?_,
            hInv1.alloc_eq, hInv1.count_eq⟩
          · intro l hl
            have hle : l = ⟨cur1.blk, cur1.off + 0⟩ :=
              (Option.some.inj hl).symm
            show l.blk ≤ sb1.gptr.blk
            rw [hle, hgptr1]
          · intro l hl _
            have hle : l = ⟨cur1.blk, cur1.off + 0⟩ :=
              (Option.some.inj hl).symm
            show l.off ≤ sb1.gptr.off
            rw [hle, hgptr1]
            simp
        | true =>
          simp only [Bool.not_true, Bool.false_eq_true, if_false, reduceIte]
          have hlen1 : 1 < sb1.blocks.length := hflagT1 rfl
          obtain ⟨nb, rest, hbs1⟩ := head_two hhead1 hlen1
          simp only [hbs1]
          have hgoff : sb1.gptr.off = hb1.blockSize := by
            rw [hgptr1]
            have := (hmulti1 hlen1).2
            omega
          have hpne : sb1.pptr.blk ≠ hb1.id := by
            rw [hpptr1]
            exact (hmulti1 hlen1).1
          obtain ⟨hInvA, hbufA⟩ :=
            advance_block_spec sb1 d hb1 nb rest hInv1 hbs1 hgoff hpne hmnenn
          have hL1 : sb1.blocks.length = rest.length + 2 := by
            rw [hbs1]; rfl
          obtain ⟨sb', out', hrun', hInv', hbufeq', hlen', hread', halloc',
            hreset', hmin', hmax'⟩ :=
            ih { sb1 with
                blocks := nb :: rest
                eback := ⟨nb.id, 0⟩
                gptr := ⟨nb.id, 0⟩
                egptr := ⟨nb.id, 0⟩
                m_last_gptr := some ⟨nb.id, 0⟩
                m_total_freed := sb1.m_total_freed + hb1.blockSize }
              remaining acc d hInvA
              (by simp only [List.length_cons]; omega)
          refine ⟨sb', out', hrun', hInv', ?_, ?_, by rw [hread']; exact
            hread1, by rw [halloc']; exact halloc1,
            by rw [hreset']; exact hreset1, by rw [hmin']; exact hmin1,
            by rw [hmax']; exact hmax1⟩
          · rw [hbufeq', hbufA, hbuf1]
          · rw [hlen', hbufA, hbuf1]
      · have hav' : avail1 ≠ 0 := hav
        simp only [if_pos hav']
        set len := min avail1 remaining with hlendef
        have hlenr : len ≤ remaining := min_le_right _ _
        have hlena : len ≤ avail1 := min_le_left _ _
        have hlenpos : 0 < len :=
          lt_min (Nat.pos_of_ne_zero hav) (Nat.pos_of_ne_zero hrem)
        have hbufchain : buffer_bytes sb1 =
            chain_data sb1.blocks cur1.off sb1.pptr := by
          unfold buffer_bytes
          rw [if_neg hmnenn, hgptr1]
        have hcr := chain_data_read sb1.blocks hb1 cur1.off len sb1.pptr
          hhead1 hInv1.data_len
          (fun h1 => ⟨by rw [hpptr1]; exact (hsingle1 h1).1,
            by
              have h2 := (hsingle1 h1).2
              rw [hpptr1]
              omega,
            by
              have h2 := (hsingle1 h1).2
              rw [hpptr1]
              omega⟩)
          (fun hm => ⟨by rw [hpptr1]; exact (hmulti1 hm).1,
            by
              have h2 := (hmulti1 hm).2
              omega⟩)
        have hceta : cur1 = (⟨hb1.id, cur1.off⟩ : Ptr) := by
          rw [← hcblk1]
        have hbytes : blocksRead sb1.blocks cur1 len =
            (buffer_bytes sb1).take len := by
          rw [hceta, hbufchain]
          exact hcr.1
        have hlbuf : len ≤ (buffer_bytes sb1).length := by omega
        have hbyteslen : (blocksRead sb1.blocks cur1 len).length = len := by
          rw [hbytes, List.length_take]
          omega
        have hbuf2 : buffer_bytes (consumer_gbump sb1 len) =
            (buffer_bytes sb1).drop len := by
          have h9 : buffer_bytes (consumer_gbump sb1 len) =
              chain_data sb1.blocks (sb1.gptr.off + len) sb1.pptr := by
            unfold buffer_bytes consumer_gbump
            simp only
            rw [if_neg hmnenn]
          rw [h9, hgptr1, hbufchain]
          exact hcr.2
        have hInv2 : SBInv { consumer_gbump sb1 len with
            m_total_read := (consumer_gbump sb1 len).m_total_read +
              (d + len) } := by
          refine ⟨hInv1.min_pos, hInv1.size_pos, hInv1.data_len,
            hInv1.ids_pw, hInv1.ids_lt, hInv1.put_area, ?_,
            hInv1.sync2, hInv1.syncA, ?_, ?_, ?_, hInv1.alloc_eq, ?_⟩
          · refine ⟨hb1, hhead1, ?_, ?_⟩
            · show sb1.gptr.blk = hb1.id
              rw [hgptr1]
              exact hcblk1
            · show sb1.gptr.off + len ≤ hb1.blockSize
              rw [hgptr1]
              omega
          · intro _ hblk
            show sb1.gptr.off + len ≤ sb1.pptr.off
            have hblk2 : sb1.gptr.blk = sb1.pptr.blk := hblk
            rw [hgptr1] at hblk2 ⊢
            rcases Nat.lt_or_ge 1 sb1.blocks.length with hm | hm
            · exfalso
              apply (hmulti1 hm).1
              rw [← hpptr1, ← hblk2, hcblk1]
            · have h1 : sb1.blocks.length = 1 := by
                have hnn : sb1.blocks ≠ [] := by
                  intro hc
                  rw [hc] at hhead1
                  cases hhead1
                have := List.length_pos.mpr hnn
                omega
              have h2 := (hsingle1 h1).2
              rw [hpptr1]
              omega
          · intro l hl
            show l.blk ≤ sb1.gptr.blk
            exact hInv1.lastg_blk l hl
          · intro l hl hblk
            show l.off ≤ sb1.gptr.off + len
            have h3 : l.off ≤ sb1.gptr.off :=
              hInv1.lastg_off l hl (by exact hblk)
            omega
          · show sb1.m_total_allocated + sb1.m_total_reset =
              sb1.m_total_read + (d + len) +
                (buffer_bytes (consumer_gbump sb1 len)).length +
                unused_in_last_block sb1
            have h4 : sb1.m_total_allocated + sb1.m_total_reset =
                sb1.m_total_read + d + (buffer_bytes sb1).length +
                  unused_in_last_block sb1 := hInv1.count_eq
            rw [hbuf2, List.length_drop]
            omega
        cases flag1 with
        | false =>
          simp only [Bool.not_false, reduceIte]
          have hlb1 : (buffer_bytes sb1).length = avail1 := hflagF1 rfl
          by_cases havl : avail1 - len = 0
          · rw [if_pos havl]
            refine ⟨store_last_gptr (consumer_gbump sb1 len)
                ⟨cur1.blk, cur1.off + len⟩,
              blocksRead sb1.blocks cur1 len, rfl, ?_, ?_, ?_,
              hread1, halloc1, hreset1, hmin1, hmax1⟩
            · rw [hbyteslen]
              refine ⟨hInv2.min_pos, hInv2.size_pos, hInv2.data_len,
                hInv2.ids_pw, hInv2.ids_lt, hInv2.put_area, hInv2.get_area,
                hInv2.sync2, hInv2.syncA, hInv2.orderA, ?_, ?_,
                hInv2.alloc_eq, hInv2.count_eq⟩
              · intro l hl
                have hle : l = ⟨cur1.blk, cur1.off + len⟩ :=
                  (Option.some.inj hl).symm
                show l.blk ≤ sb1.gptr.blk
                rw [hle, hgptr1]
              · intro l hl _
                have hle : l = ⟨cur1.blk, cur1.off + len⟩ :=
                  (Option.some.inj hl).symm
                show l.off ≤ sb1.gptr.off + len
                rw [hle, hgptr1]
            · show blocksRead sb1.blocks cur1 len ++
                buffer_bytes (consumer_gbump sb1 len) = buffer_bytes sb
              rw [hbytes, hbuf2, List.take_append_drop]
              exact hbuf1
            · rw [hbyteslen]
              omega
          · rw [if_neg havl]
            refine ⟨consumer_gbump sb1 len,
              blocksRead sb1.blocks cur1 len, rfl, ?_, ?_, ?_,
              hread1, halloc1, hreset1, hmin1, hmax1⟩
            · rw [hbyteslen]
              exact hInv2
            · rw [hbytes, hbuf2, List.take_append_drop]
              exact hbuf1
            · rw [hbyteslen]
              omega
        | true =>
          simp only [Bool.not_true, Bool.false_eq_true, if_false, reduceIte]
          have hlen1 : 1 < sb1.blocks.length := hflagT1 rfl
          obtain ⟨nb, rest, hbs1⟩ := head_two hhead1 hlen1
          have hL1 : sb1.blocks.length = rest.length + 2 := by
            rw [hbs1]; rfl
          by_cases havl : avail1 - len = 0
          · rw [if_pos havl]
            have hbs2 : (consumer_gbump sb1 len).blocks =
                hb1 :: nb :: rest := hbs1
            simp only [hbs2]
            have hgoff2 : (consumer_gbump sb1 len).gptr.off =
                hb1.blockSize := by
              show sb1.gptr.off + len = hb1.blockSize
              rw [hgptr1]
              have := (hmulti1 hlen1).2
              omega
            have hpne2 : (consumer_gbump sb1 len).pptr.blk ≠ hb1.id := by
              show sb1.pptr.blk ≠ hb1.id
              rw [hpptr1]
              exact (hmulti1 hlen1).1
            obtain ⟨hInvA, hbufA⟩ :=
              advance_block_spec (consumer_gbump sb1 len) (d + len) hb1 nb
                rest hInv2 hbs2 hgoff2 hpne2 hmnenn
            obtain ⟨sb', out', hrun', hInv', hbufeq', hlen', hread',
              halloc', hreset', hmin', hmax'⟩ :=
              ih { consumer_gbump sb1 len with
                  blocks := nb :: rest
                  eback := ⟨nb.id, 0⟩
                  gptr := ⟨nb.id, 0⟩
                  egptr := ⟨nb.id, 0⟩
                  m_last_gptr := some ⟨nb.id, 0⟩
                  m_total_freed := (consumer_gbump sb1 len).m_total_freed +
                    hb1.blockSize }
                (remaining - len) (acc ++ blocksRead sb1.blocks cur1 len)
                (d + len) hInvA
                (by simp only [List.length_cons]; omega)
            have hbufA2 : out' ++ buffer_bytes sb' =
                (buffer_bytes sb1).drop len := by
              rw [hbufeq', hbufA, hbuf2]
            refine ⟨sb', blocksRead sb1.blocks cur1 len ++ out', ?_, ?_,
              ?_, ?_, by rw [hread']; exact hread1,
              by rw [halloc']; exact halloc1,
              by rw [hreset']; exact hreset1,
              by rw [hmin']; exact hmin1,
              by rw [hmax']; exact hmax1⟩
            · rw [← List.append_assoc]
              exact hrun'
            · have h11 : (blocksRead sb1.blocks cur1 len ++ out').length =
                  len + out'.length := by
                rw [List.length_append, hbyteslen]
              rw [h11, ← Nat.add_assoc d len out'.length]
              exact hInv'
            · rw [List.append_assoc, hbufA2, hbytes,
                List.take_append_drop]
              exact hbuf1
            · have h12 : out'.length = min (remaining - len)
                  ((buffer_bytes sb1).length - len) := by
                rw [hlen']
                have h13 : (buffer_bytes { consumer_gbump sb1 len with
                    blocks := nb :: rest
                    eback := (⟨nb.id, 0⟩ : Ptr)
                    gptr := (⟨nb.id, 0⟩ : Ptr)
                    egptr := (⟨nb.id, 0⟩ : Ptr)
                    m_last_gptr := some (⟨nb.id, 0⟩ : Ptr)
                    m_total_freed := (consumer_gbump sb1 len).m_total_freed +
                      hb1.blockSize }).length =
                    (buffer_bytes sb1).length - len := by
                  rw [hbufA, hbuf2, List.length_drop]
                rw [h13]
              rw [List.length_append, hbyteslen, h12]
              omega
          · rw [if_neg havl]
            obtain ⟨sb', out', hrun', hInv', hbufeq', hlen', hread',
              halloc', hreset', hmin', hmax'⟩ :=
              ih (consumer_gbump sb1 len) (remaining - len)
                (acc ++ blocksRead sb1.blocks cur1 len) (d + len) hInv2
                (by
                  show remaining - len +
                    (consumer_gbump sb1 len).blocks.length + 1 ≤ fuel
                  have hbl : (consumer_gbump sb1 len).blocks.length =
                      sb1.blocks.length := rfl
                  omega)
            refine ⟨sb', blocksRead sb1.blocks cur1 len ++ out', ?_, ?_,
              ?_, ?_, by rw [hread']; exact hread1,
              by rw [halloc']; exact halloc1,
              by rw [hreset']; exact hreset1,
              by rw [hmin']; exact hmin1,
              by rw [hmax']; exact hmax1⟩
            · rw [← List.append_assoc]
              exact hrun'
            · have h11 : (blocksRead sb1.blocks cur1 len ++ out').length =
                  len + out'.length := by
                rw [List.length_append, hbyteslen]
              rw [h11, ← Nat.add_assoc d len out'.length]
              exact hInv'
            · rw [List.append_assoc, hbufeq', hbuf2, hbytes,
                List.take_append_drop]
              exact hbuf1
            · have h12 : out'.length = min (remaining - len)
                  ((buffer_bytes sb1).length - len) := by
                rw [hlen', hbuf2, List.length_drop]
              rw [List.length_append, hbyteslen, h12]
              omega

/-- `xsgetn_a` from an invariant state: the call succeeds, returns
exactly `min n |buffer|` bytes taken off the front of the buffer, and
advances `m_total_read` by the number of bytes read. -/
theorem xsgetn_a_spec (sb : SB) (n : Nat) (hInv : SBInv sb) :
    ∃ sb' out, xsgetn_a sb n = some (sb', out) ∧ SBInv sb' ∧
      out ++ buffer_bytes sb' = buffer_bytes sb ∧
      out.length = min n (buffer_bytes sb).length ∧
      sb'.m_total_read = sb.m_total_read + out.length ∧
      sb'.m_total_allocated = sb.m_total_allocated ∧
      sb'.m_total_reset = sb.m_total_reset ∧
      sb'.m_minimum_block_size = sb.m_minimum_block_size ∧
      sb'.m_max_allocated_block_size = sb.m_max_allocated_block_size := by
  obtain ⟨sb1, out, hrun, hInv1, hbuf, hlen, hread, halloc, hreset, hmin,
    hmax⟩ := xsgetn_loop_spec (n + sb.blocks.length + 2) sb n [] 0
    (by simpa using hInv) (by omega)
  rw [List.nil_append] at hrun
  refine ⟨{ sb1 with m_total_read := sb1.m_total_read + out.length }, out,
    ?_, ?_, hbuf, hlen, ?_, halloc, hreset, hmin, hmax⟩
  · unfold xsgetn_a
    rw [hrun]
  · have h2 := hInv1
    rw [Nat.zero_add] at h2
    exact h2
  · show sb1.m_total_read + out.length = sb.m_total_read + out.length
    rw [hread]

/-- `underflow_a` from an invariant state: it succeeds, preserves the
invariant and the buffer, and returns EOF exactly when the buffer is
empty. -/
theorem underflow_a_spec (sb : SB) (hInv : SBInv sb) :
    ∃ sb' r, underflow_a sb = some (sb', r) ∧ SBInv sb' ∧
      buffer_bytes sb' = buffer_bytes sb ∧
      sb'.m_total_read = sb.m_total_read ∧
      sb'.m_total_allocated = sb.m_total_allocated ∧
      sb'.m_total_reset = sb.m_total_reset ∧
      sb'.m_minimum_block_size = sb.m_minimum_block_size ∧
      sb'.m_max_allocated_block_size = sb.m_max_allocated_block_size := by
  obtain ⟨sb1, cur1, avail1, flag1, hu, hInv1, hgptr1, hbuf1, havle1,
    hpptr1, hepptr1, hpbase1, hmne1, hread1, halloc1, hreset1, hmin1,
    hmax1, hnid1, hblen1, ⟨hb1, hhead1, hcblk1, hcfit1, hsingle1,
    hmulti1⟩, hflagF1, hflagT1⟩ :=
    update_get_area_spec sb 0 (by simpa using hInv)
  have hInv1' : SBInv sb1 := by
    have h2 := hInv1
    rw [Nat.add_zero] at h2
    exact h2
  simp only [underflow_a, hu]
  by_cases hav : avail1 = 0
  · rw [if_pos hav]
    refine ⟨store_last_gptr sb1 cur1, EOF, rfl, ?_, hbuf1, hread1, halloc1,
      hreset1, hmin1, hmax1⟩
    refine ⟨hInv1'.min_pos, hInv1'.size_pos, hInv1'.data_len,
      hInv1'.ids_pw, hInv1'.ids_lt, hInv1'.put_area, hInv1'.get_area,
      hInv1'.sync2, hInv1'.syncA, hInv1'.orderA, ?_, ?_,
      hInv1'.alloc_eq, hInv1'.count_eq⟩
    · intro l hl
      have hle : l = cur1 := (Option.some.inj hl).symm
      show l.blk ≤ sb1.gptr.blk
      rw [hle, hgptr1]
    · intro l hl _
      have hle : l = cur1 := (Option.some.inj hl).symm
      show l.off ≤ sb1.gptr.off
      rw [hle, hgptr1]
  · rw [if_neg hav]
    exact ⟨sb1, 0, rfl, hInv1', hbuf1, hread1, halloc1, hreset1, hmin1,
      hmax1⟩

/-- The constructor establishes the invariant. -/
theorem mkStreamBuf_inv (m bfw mx : Nat) (hmin : 0 < m) :
    SBInv (mkStreamBuf m bfw mx) := by
  have hbs : malloc_size (m + sizeofMemoryBlock) - sizeofMemoryBlock = m := by
    unfold malloc_size sizeofMemoryBlock
    omega
  unfold mkStreamBuf create_memory_block producer_setp consumer_setg
    sync_egptr
  simp only [hbs]
  refine ⟨?_, ?_, ?_, ?_, ?_, ?_, ?_, ?_, ?_, ?_, ?_, ?_, ?_, ?_⟩ <;>
    simp [buffer_bytes, chain_data, listSlice_self, unused_in_last_block,
      sumSizes, hmin]

/-! ## StreamBuf: the operation machine -/

/-- A fresh StreamBuf holds no unread bytes. -/
theorem mkStreamBuf_buffer (m bfw mx : Nat) :
    buffer_bytes (mkStreamBuf m bfw mx) = [] := by
  unfold mkStreamBuf create_memory_block producer_setp consumer_setg
    sync_egptr
  simp [buffer_bytes, chain_data, listSlice_self]

/-- One machine operation from an invariant state: it succeeds, and the
bytes read plus the remaining buffer equal the old buffer plus the
bytes written (FIFO step relation). -/
theorem sb_step_spec (sb : SB) (op : SBOp) (hInv : SBInv sb) :
    ∃ sb' w r, sb_step sb op = some (sb', w, r) ∧ SBInv sb' ∧
      r ++ buffer_bytes sb' = buffer_bytes sb ++ w := by
  cases op with
  | write s =>
    obtain ⟨sb', rr, m, hrun, hInv', hle, hbuf, _⟩ := xsputn_a_spec sb s hInv
    refine ⟨sb', s.take m, [], ?_, hInv', ?_⟩
    · simp only [sb_step, hrun]
    · rw [List.nil_append, hbuf]
  | write_char c =>
    obtain ⟨sb', rr, k, hrun, hInv', hbuf, hk⟩ := overflow_a_spec sb c hInv
    refine ⟨sb', if k = 1 then [(c % 256).toNat] else [], [], ?_, hInv', ?_⟩
    · simp only [sb_step, hrun]
    · rw [List.nil_append, hbuf]
  | read n =>
    obtain ⟨sb', out, hrun, hInv', hbuf, _⟩ := xsgetn_a_spec sb n hInv
    refine ⟨sb', [], out, ?_, hInv', ?_⟩
    · simp only [sb_step, hrun]
    · rw [List.append_nil, hbuf]
  | poll =>
    obtain ⟨sb', rr, hrun, hInv', hbuf, _⟩ := underflow_a_spec sb hInv
    refine ⟨sb', [], [], ?_, hInv', ?_⟩
    · simp only [sb_step, hrun]
    · rw [List.nil_append, List.append_nil, hbuf]

/-- Any operation sequence from an invariant state runs to completion,
and the bytes read plus the remaining buffer equal the old buffer plus
all bytes written. -/
theorem sb_run_spec (ops : List SBOp) :
    ∀ (sb : SB), SBInv sb →
    ∃ sb' W R, sb_run sb ops = some (sb', W, R) ∧ SBInv sb' ∧
      R ++ buffer_bytes sb' = buffer_bytes sb ++ W := by
  induction ops with
  | nil =>
    intro sb hInv
    exact ⟨sb, [], [], rfl, hInv, by simp⟩
  | cons op ops ih =>
    intro sb hInv
    obtain ⟨sb1, w, r, hstep, hInv1, hbuf1⟩ := sb_step_spec sb op hInv
    obtain ⟨sb', W, R, hrun, hInv', hbuf'⟩ := ih sb1 hInv1
    refine ⟨sb', w ++ W, r ++ R, ?_, hInv', ?_⟩
    · simp only [sb_run, hstep, hrun]
    · rw [List.append_assoc, hbuf', ← List.append_assoc, hbuf1,
        List.append_assoc]

/-! ## Clamp characterisation lemmas -/

theorem min_le_new_block_size (sb : SB) :
    sb.m_minimum_block_size ≤ new_block_size sb := by
  unfold new_block_size malloc_size sizeofMemoryBlock
  omega

/-- The EOF/BufferFull path of the block sizing fires exactly when not
even a minimum-size block fits under the allocation limit. -/
theorem clamped_none_iff (sb : SB)
    (hmin : 0 < sb.m_minimum_block_size) :
    clamped_block_size sb = none ↔
      sb.m_max_allocated_block_size <
        get_allocated_upper_bound sb + sb.m_minimum_block_size := by
  have hm := min_le_new_block_size sb
  simp only [clamped_block_size]
  by_cases h1 : get_allocated_upper_bound sb + new_block_size sb >
      sb.m_max_allocated_block_size
  · rw [if_pos h1]
    by_cases h2 : max_malloc_size (sb.m_max_allocated_block_size -
        get_allocated_upper_bound sb + sizeofMemoryBlock) -
        sizeofMemoryBlock < sb.m_minimum_block_size
    · rw [if_pos h2]
      unfold max_malloc_size sizeofMemoryBlock at h2
      constructor
      · intro _
        omega
      · intro _
        rfl
    · rw [if_neg h2]
      unfold max_malloc_size sizeofMemoryBlock at h2
      constructor
      · intro hc
        exact absurd hc (by simp)
      · intro hc
        exfalso
        omega
  · rw [if_neg h1]
    constructor
    · intro hc
      exact absurd hc (by simp)
    · intro hc
      exfalso
      omega

/-- When the fresh-block size would exceed the allocation limit but a
block of at least the minimum size still fits, the size is clamped to
exactly the remaining budget. -/
theorem clamped_reduces_to_fit (sb : SB)
    (h1 : sb.m_max_allocated_block_size <
      get_allocated_upper_bound sb + new_block_size sb)
    (h2 : sb.m_minimum_block_size ≤
      sb.m_max_allocated_block_size - get_allocated_upper_bound sb) :
    clamped_block_size sb =
      some (sb.m_max_allocated_block_size -
        get_allocated_upper_bound sb) := by
  simp only [clamped_block_size]
  rw [if_pos (show get_allocated_upper_bound sb + new_block_size sb >
    sb.m_max_allocated_block_size by omega)]
  rw [if_neg (show ¬(max_malloc_size (sb.m_max_allocated_block_size -
      get_allocated_upper_bound sb + sizeofMemoryBlock) -
      sizeofMemoryBlock < sb.m_minimum_block_size) by
    unfold max_malloc_size sizeofMemoryBlock
    omega)]
  unfold max_malloc_size sizeofMemoryBlock
  congr 1

/-! ## C1: the SPSC FIFO property -/

/-- **C1**: for every sequence of producer writes (`xsputn_a`,
`overflow_a`) interleaved arbitrarily with consumer reads (`xsgetn_a`,
`underflow_a`/`update_get_area`) against a fresh StreamBuf, the
concatenation `R` of the bytes read is a prefix of the concatenation
`W` of the bytes copied into the buffer — precisely, `R` plus the
unread bytes equals `W` — and once the buffer is drained the bytes
read equal the bytes written. -/
theorem streambuf_fifo (m bfw mx : Nat) (hmin : 0 < m) (ops : List SBOp) :
    ∃ sb' W R, sb_run (mkStreamBuf m bfw mx) ops = some (sb', W, R) ∧
      R ++ buffer_bytes sb' = W ∧ (∃ t, R ++ t = W) ∧
      (buffer_bytes sb' = [] → R = W) := by
  obtain ⟨sb', W, R, hrun, _, hbuf⟩ :=
    sb_run_spec ops (mkStreamBuf m bfw mx) (mkStreamBuf_inv m bfw mx hmin)
  rw [mkStreamBuf_buffer, List.nil_append] at hbuf
  refine ⟨sb', W, R, hrun, hbuf, ⟨buffer_bytes sb', hbuf⟩, ?_⟩
  intro hd
  rw [hd, List.append_nil] at hbuf
  exact hbuf

theorem streambuf_fifo_witness :
    0 < 8 ∧
    (∃ sb' W R, sb_run (mkStreamBuf 8 0 10000)
        [SBOp.write [1, 2, 3, 4, 5], SBOp.read 3, SBOp.write_char 65,
          SBOp.read 10] = some (sb', W, R) ∧
      R ++ buffer_bytes sb' = W ∧ (∃ t, R ++ t = W) ∧
      (buffer_bytes sb' = [] → R = W)) :=
  ⟨by decide, streambuf_fifo 8 0 10000 (by decide)
    [SBOp.write [1, 2, 3, 4, 5], SBOp.read 3, SBOp.write_char 65,
      SBOp.read 10]⟩

/-! ## C2: the allocation clamp and the BufferFull short write -/

/-- C2 counterexample: a `StreamBuf` with `minimum_block_size = 10` and
`max_allocated_block_size = 10` accepts 10 of 15 bytes and then hits
BufferFull; `xsputn_a` returns EOF (-1), not the short byte count 10
the claim states it returns. -/
theorem xsputn_bufferfull_counterexample :
    (xsputn_a (mkStreamBuf 10 0 10) (List.replicate 15 7)).map
        (fun p => (p.2.1, p.2.2)) = some (EOF, 10) ∧ EOF ≠ (10 : Int) := by
  constructor
  · rfl
  · decide

/-- **C2** (amended): when a fresh block would exceed the allocation
limit but at least a minimum-size block fits, the size is clamped to the
remaining budget; the write copies `k ≤ |s|` bytes into the buffer, and
either all bytes are copied and the byte count is returned, or the call
stops short with return value EOF (BufferFull) in a state where not even
a minimum-size block fits. -/
theorem xsputn_a_allocation_clamp (sb : SB) (s : List Nat)
    (hInv : SBInv sb) :
    ((sb.m_max_allocated_block_size <
        get_allocated_upper_bound sb + new_block_size sb ∧
      sb.m_minimum_block_size ≤
        sb.m_max_allocated_block_size - get_allocated_upper_bound sb) →
      clamped_block_size sb =
        some (sb.m_max_allocated_block_size -
          get_allocated_upper_bound sb)) ∧
    ∃ sb' r k, xsputn_a sb s = some (sb', r, k) ∧ k ≤ s.length ∧
      buffer_bytes sb' = buffer_bytes sb ++ s.take k ∧
      ((r = (k : Int) ∧ k = s.length) ∨
        (r = EOF ∧ k < s.length ∧
          sb'.m_max_allocated_block_size <
            get_allocated_upper_bound sb' + sb'.m_minimum_block_size)) := by
  refine ⟨fun h => clamped_reduces_to_fit sb h.1 h.2, ?_⟩
  obtain ⟨sb', r, k, hrun, hInv2, hk, hbuf, hr⟩ := xsputn_a_spec sb s hInv
  refine ⟨sb', r, k, hrun, hk, hbuf, ?_⟩
  rcases hr with h | ⟨h1, h2, h3⟩
  · exact Or.inl h
  · exact Or.inr ⟨h1, h2, (clamped_none_iff sb' hInv2.min_pos).mp h3⟩

theorem xsputn_a_allocation_clamp_witness :
    SBInv (mkStreamBuf 10 0 10) ∧
    (((mkStreamBuf 10 0 10).m_max_allocated_block_size <
        get_allocated_upper_bound (mkStreamBuf 10 0 10) +
          new_block_size (mkStreamBuf 10 0 10) ∧
      (mkStreamBuf 10 0 10).m_minimum_block_size ≤
        (mkStreamBuf 10 0 10).m_max_allocated_block_size -
          get_allocated_upper_bound (mkStreamBuf 10 0 10) →
      clamped_block_size (mkStreamBuf 10 0 10) =
        some ((mkStreamBuf 10 0 10).m_max_allocated_block_size -
          get_allocated_upper_bound (mkStreamBuf 10 0 10))) ∧
    ∃ sb' r k, xsputn_a (mkStreamBuf 10 0 10) (List.replicate 15 7) =
        some (sb', r, k) ∧ k ≤ (List.replicate 15 7).length ∧
      buffer_bytes sb' = buffer_bytes (mkStreamBuf 10 0 10) ++
        (List.replicate 15 7).take k ∧
      ((r = (k : Int) ∧ k = (List.replicate 15 7).length) ∨
        (r = EOF ∧ k < (List.replicate 15 7).length ∧
          sb'.m_max_allocated_block_size <
            get_allocated_upper_bound sb' +
              sb'.m_minimum_block_size))) :=
  ⟨mkStreamBuf_inv 10 0 10 (by decide),
    xsputn_a_allocation_clamp (mkStreamBuf 10 0 10) (List.replicate 15 7)
      (mkStreamBuf_inv 10 0 10 (by decide))⟩

/-! ## C3: the reset condition of update_put_area -/

/-- **C3**: `update_put_area` starts a reset cycle iff (a) `pptr` is
not at the block start, (b) the handshake pointer is not the nullptr
reset signal, and (c) the consumer's `m_last_gptr` equals `pptr`; on a
reset it publishes the reset target (`m_next_egptr2 := block start`,
then `m_next_egptr := nullptr`), adds the reclaimed span to
`m_total_reset` and rewinds `pptr`; otherwise the state is returned
unchanged. -/
theorem update_put_area_reset_iff (sb : SB) :
    ((sb.pptr ≠ sb.pbase ∧ sb.m_next_egptr ≠ none ∧
        sb.m_last_gptr = some sb.pptr) →
      update_put_area sb =
        ({ sb with
            m_next_egptr2 := sb.pbase
            m_next_egptr := none
            m_total_reset :=
              sb.m_total_reset + (sb.pptr.off - sb.pbase.off)
            pptr := sb.pbase },
          sb.pbase, sb.epptr.off - sb.pbase.off)) ∧
    (¬(sb.pptr ≠ sb.pbase ∧ sb.m_next_egptr ≠ none ∧
        sb.m_last_gptr = some sb.pptr) →
      update_put_area sb = (sb, sb.pptr, sb.epptr.off - sb.pptr.off)) := by
  constructor
  · intro h
    simp only [update_put_area, if_pos h]
  · intro h
    simp only [update_put_area, if_neg h]

theorem update_put_area_reset_iff_witness :
    update_put_area
        ⟨[⟨0, 4, [9, 9, 0, 0]⟩], ⟨0, 0⟩, ⟨0, 2⟩, ⟨0, 4⟩, ⟨0, 0⟩, ⟨0, 2⟩,
          ⟨0, 2⟩, some ⟨0, 2⟩, ⟨0, 2⟩, some ⟨0, 2⟩, 4, 0, 2, 0, 4, 1000, 1⟩ =
      (⟨[⟨0, 4, [9, 9, 0, 0]⟩], ⟨0, 0⟩, ⟨0, 0⟩, ⟨0, 4⟩, ⟨0, 0⟩, ⟨0, 2⟩,
          ⟨0, 2⟩, none, ⟨0, 0⟩, some ⟨0, 2⟩, 4, 0, 2, 2, 4, 1000, 1⟩,
        ⟨0, 0⟩, 4) :=
  (update_put_area_reset_iff _).1 (by decide)

/-! ## C4: the counter invariants -/

/-- **C4**: in every state reachable by any operation sequence,
`total_freed ≤ total_allocated` and
`total_read ≤ total_allocated + total_reset`; `create_memory_block`
adds exactly the block size to `m_total_allocated`, and
`release_memory_block` adds exactly the released (head) block's size
to `m_total_freed`. -/
theorem streambuf_counters (m bfw mx : Nat) (hmin : 0 < m)
    (ops : List SBOp) :
    (∃ sb' W R, sb_run (mkStreamBuf m bfw mx) ops = some (sb', W, R) ∧
      sb'.m_total_freed ≤ sb'.m_total_allocated ∧
      sb'.m_total_read ≤ sb'.m_total_allocated + sb'.m_total_reset) ∧
    (∀ sb bsize, (create_memory_block sb bsize).1.m_total_allocated =
        sb.m_total_allocated + bsize ∧
      (create_memory_block sb bsize).1.m_total_freed =
        sb.m_total_freed) ∧
    (∀ sb sb' p, release_memory_block sb = some (sb', p) →
      ∃ b, sb.blocks.head? = some b ∧
        sb'.m_total_freed = sb.m_total_freed + b.blockSize ∧
        sb'.m_total_allocated = sb.m_total_allocated) := by
  refine ⟨?_, fun sb bsize => ⟨rfl, rfl⟩, ?_⟩
  · obtain ⟨sb', W, R, hrun, hInv, _⟩ :=
      sb_run_spec ops (mkStreamBuf m bfw mx) (mkStreamBuf_inv m bfw mx hmin)
    refine ⟨sb', W, R, hrun, ?_, ?_⟩
    · have h := hInv.alloc_eq
      omega
    · have h := hInv.count_eq
      omega
  · intro sb sb' p hrel
    cases hbl : sb.blocks with
    | nil =>
      rw [release_memory_block, hbl] at hrel
      cases hrel
    | cons b rest =>
      cases rest with
      | nil =>
        rw [release_memory_block, hbl] at hrel
        cases hrel
      | cons nb rest' =>
        rw [release_memory_block, hbl] at hrel
        simp only [Option.some.injEq, Prod.mk.injEq] at hrel
        obtain ⟨he, _⟩ := hrel
        refine ⟨b, rfl, ?_, ?_⟩
        · rw [← he]
          rfl
        · rw [← he]
          rfl

theorem streambuf_counters_witness :
    0 < 8 ∧
    ((∃ sb' W R, sb_run (mkStreamBuf 8 0 10000)
        [SBOp.write [1, 2, 3], SBOp.read 2] = some (sb', W, R) ∧
      sb'.m_total_freed ≤ sb'.m_total_allocated ∧
      sb'.m_total_read ≤ sb'.m_total_allocated + sb'.m_total_reset) ∧
    (∀ sb bsize, (create_memory_block sb bsize).1.m_total_allocated =
        sb.m_total_allocated + bsize ∧
      (create_memory_block sb bsize).1.m_total_freed =
        sb.m_total_freed) ∧
    (∀ sb sb' p, release_memory_block sb = some (sb', p) →
      ∃ b, sb.blocks.head? = some b ∧
        sb'.m_total_freed = sb.m_total_freed + b.blockSize ∧
        sb'.m_total_allocated = sb.m_total_allocated)) :=
  ⟨by decide, streambuf_counters 8 0 10000 (by decide)
    [SBOp.write [1, 2, 3], SBOp.read 2]⟩

/-! ## C8: pbackfail is fatal -/

/-- **C8**: for every character argument (every `int_type` other than
the EOF pseudo-value), `pbackfail` hits the fatal `DoutFatal`
InvariantViolation path and the buffer state is returned unmodified. -/
theorem pbackfail_fatal (sb : SB) (c : Int) (hc : c ≠ EOF) :
    pbackfail sb c = (PbackResult.fatal_abort, sb) := by
  unfold pbackfail
  rw [if_neg hc]

theorem pbackfail_fatal_witness :
    (65 : Int) ≠ EOF ∧
    pbackfail (mkStreamBuf 4 0 100) 65 =
      (PbackResult.fatal_abort, mkStreamBuf 4 0 100) :=
  ⟨by decide, pbackfail_fatal (mkStreamBuf 4 0 100) 65 (by decide)⟩

/-! ## Bitmask helper lemmas -/

theorem and_ne_zero_of_testBit {x y i : Nat} (hx : x.testBit i = true)
    (hy : y.testBit i = true) : x &&& y ≠ 0 := by
  intro h
  have := congrArg (fun n => n.testBit i) h
  simp [Nat.testBit_and, hx, hy] at this

theorem testBit_of_and_two_pow_ne_zero {x i : Nat} (h : x &&& 2 ^ i ≠ 0) :
    x.testBit i = true := by
  rw [Nat.and_two_pow] at h
  rcases hb : x.testBit i with _ | _
  · rw [hb] at h
    simp at h
  · rfl

/-! ## C6: the wakeup signal handler -/

/-- C6: `EventLoopThread::s_wakeup_handler` sets `stop_running` to `true`
if and only if `terminate == forced`, or `terminate == cleanly` and
`active == 0`; in every other state it leaves the dispatcher state
unchanged. -/
theorem s_wakeup_handler_sets_stop_running_iff (s : WakeupState) :
    (s.terminate = .forced ∨ (s.terminate = .cleanly ∧ s.active = 0) →
        s_wakeup_handler s = { s with stop_running := true }) ∧
    (¬(s.terminate = .forced ∨ (s.terminate = .cleanly ∧ s.active = 0)) →
        s_wakeup_handler s = s) := by
  constructor <;> intro h <;> simp [s_wakeup_handler, h]

theorem s_wakeup_handler_witness :
    ((⟨.forced, 3, false⟩ : WakeupState).terminate = .forced ∨
      ((⟨.forced, 3, false⟩ : WakeupState).terminate = .cleanly ∧
        (⟨.forced, 3, false⟩ : WakeupState).active = 0)) ∧
    s_wakeup_handler ⟨.forced, 3, false⟩ = ⟨.forced, 3, true⟩ :=
  ⟨Or.inl rfl,
    (s_wakeup_handler_sets_stop_running_iff ⟨.forced, 3, false⟩).1 (Or.inl rfl)⟩

/-! ## C5: hang-up and exceptional events -/

/-- C5 (counterexample): for a pure `EPOLLERR` event the queued closure
invokes `exceptional_event` but never closes the device's fd, contrary to
the claim that the fd is closed after the callback for exceptional
events. -/
theorem exceptional_event_does_not_close_fd :
    DevAction.exceptional_event ∈ event_closure 8 ∧
      DevAction.close_fd ∉ event_closure 8 := by
  decide

/-- C5 (amended): for every event mask containing `EPOLLHUP` the closure
invokes `hup_event` and then closes the fd; for every mask containing
`EPOLLERR` but not `EPOLLHUP` the closure invokes `exceptional_event`
and does not close the fd. -/
theorem hup_closes_fd_exceptional_does_not (events : Nat) :
    (events &&& EPOLLHUP ≠ 0 →
      event_closure events =
        [.hup_event, .close_fd, .clear_being_processed EPOLLHUP,
          .allow_deletion]) ∧
    (events &&& EPOLLHUP = 0 → events &&& EPOLLERR ≠ 0 →
      event_closure events =
        [.exceptional_event, .clear_being_processed EPOLLERR,
          .allow_deletion]) := by
  constructor
  · intro hh
    have hbit : events.testBit 4 = true :=
      @testBit_of_and_two_pow_ne_zero events 4 hh
    have houter : events &&& (0xFFFFFFFF ^^^ (EPOLLIN ||| EPOLLOUT)) ≠ 0 :=
      and_ne_zero_of_testBit hbit (by decide)
    simp [event_closure, houter, hh]
  · intro hnh herr
    have hbit : events.testBit 3 = true :=
      @testBit_of_and_two_pow_ne_zero events 3 herr
    have houter : events &&& (0xFFFFFFFF ^^^ (EPOLLIN ||| EPOLLOUT)) ≠ 0 :=
      and_ne_zero_of_testBit hbit (by decide)
    simp [event_closure, houter, hnh, herr]

theorem hup_closes_fd_witness :
    ((16 : Nat) &&& EPOLLHUP ≠ 0) ∧
    event_closure 16 =
      [.hup_event, .close_fd, .clear_being_processed EPOLLHUP,
        .allow_deletion] :=
  ⟨by decide, (hup_closes_fd_exceptional_does_not 16).1 (by decide)⟩

/-! ## C9: the default end-of-message finder -/

/-- C9: for every byte array and length `rlen` within it, the default
`InputDecoder::end_of_msg_finder` returns `i + 1` where `i` is the index
of the first newline among the first `rlen` bytes when one occurs there,
and `0` otherwise. -/
theorem end_of_msg_finder_spec (new_data : List Nat) (rlen : Nat)
    (h : rlen ≤ new_data.length) :
    ((∀ i, i < rlen → new_data.getD i 0 ≠ 10) ∧
        end_of_msg_finder new_data rlen = 0) ∨
    (∃ i, i < rlen ∧ new_data.getD i 0 = 10 ∧
        (∀ j, j < i → new_data.getD j 0 ≠ 10) ∧
        end_of_msg_finder new_data rlen = i + 1) := by
  have hlen : (new_data.take rlen).length = rlen := by
    simp [List.length_take]; omega
  have hgd : ∀ i, i < rlen → new_data.getD i 0 = (new_data.take rlen).getD i 0 := by
    intro i hi
    have hi1 : i < new_data.length := lt_of_lt_of_le hi h
    have hi2 : i < (new_data.take rlen).length := by omega
    rw [List.getD_eq_getElem _ _ hi1, List.getD_eq_getElem _ _ hi2,
      List.getElem_take]
  cases ht : (new_data.take rlen).findIdx? (· = 10) with
  | none =>
    left
    constructor
    · rw [List.findIdx?_eq_none_iff] at ht
      intro i hi
      have hi2 : i < (new_data.take rlen).length := by omega
      rw [hgd i hi, List.getD_eq_getElem _ _ hi2]
      have hmem := List.getElem_mem hi2
      have := ht _ hmem
      simpa using this
    · simp only [end_of_msg_finder, ht]
  | some i =>
    right
    have heq : end_of_msg_finder new_data rlen = i + 1 := by
      simp only [end_of_msg_finder, ht]
    rw [List.findIdx?_eq_some_iff_findIdx_eq] at ht
    obtain ⟨hilt, hidx⟩ := ht
    refine ⟨i, by omega, ?_, ?_, heq⟩
    · rw [hgd i (by omega), List.getD_eq_getElem _ _ hilt]
      have := @List.findIdx_getElem _ (· = 10) (new_data.take rlen)
        (hidx ▸ hilt)
      simp only [hidx] at this
      simpa using this
    · intro j hj
      have hj2 : j < (new_data.take rlen).length := by omega
      rw [hgd j (by omega), List.getD_eq_getElem _ _ hj2]
      have := @List.not_of_lt_findIdx _ (· = 10) (new_data.take rlen) j
        (by omega)
      simpa using this

theorem end_of_msg_finder_witness :
    ((4 : Nat) ≤ ([72, 105, 10, 33] : List Nat).length) ∧
    (((∀ i, i < 4 → ([72, 105, 10, 33] : List Nat).getD i 0 ≠ 10) ∧
        end_of_msg_finder [72, 105, 10, 33] 4 = 0) ∨
     (∃ i, i < 4 ∧ ([72, 105, 10, 33] : List Nat).getD i 0 = 10 ∧
        (∀ j, j < i → ([72, 105, 10, 33] : List Nat).getD j 0 ≠ 10) ∧
        end_of_msg_finder [72, 105, 10, 33] 4 = i + 1)) :=
  ⟨by decide, end_of_msg_finder_spec [72, 105, 10, 33] 4 (by decide)⟩

/-! ## C10: failed conditional start/stop is atomic -/

/-- C10: when the re-test of the fuzzy condition under the state lock
comes out momentary-false, `start_if` undoes the `active` bit it had just
set and returns `false`, and `stop_if` restores the `active` bit it had
just cleared and returns `false`; in both cases the device state equals
the state before the call. -/
theorem start_if_stop_if_failed_retest_atomic (s : ELTDevState)
    (c : FuzzyCondition) (hc : c.cached = .fWasTrue)
    (hr : is_momentary_false c.reeval = true) :
    (¬s.disabled = true → ¬s.active = true → start_if s c = (s, false)) ∧
    (s.active = true → stop_if s c = (s, false)) := by
  obtain ⟨a, ad, d, inf, rf, ma, rc, w⟩ := s
  constructor
  · intro hd hna
    simp only [Bool.not_eq_true] at hd hna
    subst hd hna
    simp [start_if, hc, hr]
  · intro ha
    subst ha
    simp [stop_if, hc, hr]

/-! ## C7: the dispatch discipline -/

theorem testBit_andNot (x mask i : Nat) :
    (andNot x mask).testBit i = (x.testBit i && !mask.testBit i) :=
  Nat.testBit_bitwise rfl x mask i

theorem andNot_eq_zero_iff {x y : Nat} :
    andNot x y = 0 ↔ ∀ i, x.testBit i = true → y.testBit i = true := by
  constructor
  · intro h i hx
    have := congrArg (fun n => n.testBit i) h
    simp only [testBit_andNot, Nat.zero_testBit, Bool.and_eq_false_iff] at this
    rcases this with h1 | h1
    · rw [hx] at h1; exact absurd h1 (by simp)
    · simpa using h1
  · intro h
    apply Nat.eq_of_testBit_eq
    intro i
    simp only [testBit_andNot, Nat.zero_testBit]
    rcases hx : x.testBit i with _ | _
    · rfl
    · simp [h i hx]

theorem and_eq_zero_iff' {x y : Nat} :
    x &&& y = 0 ↔ ∀ i, x.testBit i = false ∨ y.testBit i = false := by
  constructor
  · intro h i
    have := congrArg (fun n => n.testBit i) h
    simp only [Nat.testBit_and, Nat.zero_testBit, Bool.and_eq_false_iff] at this
    exact this
  · intro h
    apply Nat.eq_of_testBit_eq
    intro i
    simp only [Nat.testBit_and, Nat.zero_testBit]
    rcases h i with h1 | h1 <;> simp [h1]

/-- Disjointness of worker masks survives shrinking one of them. -/
theorem and_eq_zero_of_sub {a a' b : Nat}
    (hsub : ∀ i, a'.testBit i = true → a.testBit i = true)
    (h : a &&& b = 0) : a' &&& b = 0 := by
  rw [and_eq_zero_iff'] at h ⊢
  intro i
  rcases h i with h1 | h1
  · rcases ha : a'.testBit i with _ | _
    · exact Or.inl rfl
    · rw [hsub i ha] at h1; exact absurd h1 (by simp)
  · exact Or.inr h1

/-- At most one pairwise-disjoint mask can carry a given bit. -/
theorem pairwise_disjoint_filter_testBit (l : List Nat)
    (h : l.Pairwise (fun a b => a &&& b = 0)) (i : Nat) :
    (l.filter (fun w => w.testBit i)).length ≤ 1 := by
  induction l with
  | nil => simp
  | cons w ws ih =>
    rw [List.pairwise_cons] at h
    obtain ⟨hw, hws⟩ := h
    rcases hb : w.testBit i with _ | _
    · simpa [List.filter_cons, hb] using ih hws
    · have hnone : ws.filter (fun w => w.testBit i) = [] := by
        rw [List.filter_eq_nil_iff]
        intro b hbmem
        rcases hbb : b.testBit i with _ | _
        · simp
        · exfalso
          have hdis := hw b hbmem
          rw [and_eq_zero_iff'] at hdis
          rcases hdis i with h1 | h1
          · rw [hb] at h1; exact absurd h1 (by simp)
          · rw [hbb] at h1; exact absurd h1 (by simp)
      simp [List.filter_cons, hb, hnone]

theorem and_eq_zero_of_sub_right {a b b' : Nat}
    (hsub : ∀ i, b'.testBit i = true → b.testBit i = true)
    (h : a &&& b = 0) : a &&& b' = 0 := by
  rw [Nat.and_comm] at h
  rw [Nat.and_comm]
  exact and_eq_zero_of_sub hsub h

/-- `DStep` preserves the dispatch invariant. -/
theorem dinv_step {s t : DispatchState} (hstep : DStep s t) (ih : DInv s) :
    DInv t := by
  obtain ⟨ihOwn, ihPair⟩ := ih
  cases hstep with
  | dispatch events =>
    by_cases hnz : andNot events s.being_processed_by_pool ≠ 0
    · constructor
      · intro j hj
        simp only [if_pos hnz] at hj ⊢
        rw [andNot_eq_zero_iff]
        intro i hwi
        simp only [Nat.testBit_or]
        match j, hj with
        | 0, _ =>
          simp only [List.getElem_cons_zero] at hwi
          rw [testBit_andNot, Bool.and_eq_true] at hwi
          simp [hwi.1]
        | j + 1, hj =>
          simp only [List.getElem_cons_succ] at hwi
          have := (andNot_eq_zero_iff).mp
            (ihOwn j (by simpa using Nat.lt_of_succ_lt_succ hj)) i hwi
          simp [this]
      · intro j k hj hk hjk
        simp only [if_pos hnz] at hj hk ⊢
        have key : ∀ m, (hm : m < s.workers.length) →
            andNot events s.being_processed_by_pool &&& s.workers[m] = 0 := by
          intro m hm
          rw [and_eq_zero_iff']
          intro i
          rcases hni : (andNot events s.being_processed_by_pool).testBit i
            with _ | _
          · exact Or.inl rfl
          · rcases hwi : (s.workers[m]).testBit i with _ | _
            · exact Or.inr rfl
            · exfalso
              rw [testBit_andNot, Bool.and_eq_true] at hni
              have hbp := (andNot_eq_zero_iff).mp (ihOwn m hm) i hwi
              rw [hbp] at hni
              simpa using hni.2
        match j, k, hj, hk, hjk with
        | 0, 0, _, _, hjk => exact absurd rfl hjk
        | 0, k + 1, _, hk, _ =>
          simp only [List.getElem_cons_zero, List.getElem_cons_succ]
          exact key k (by simpa using Nat.lt_of_succ_lt_succ hk)
        | j + 1, 0, hj, _, _ =>
          simp only [List.getElem_cons_zero, List.getElem_cons_succ]
          rw [Nat.and_comm]
          exact key j (by simpa using Nat.lt_of_succ_lt_succ hj)
        | j + 1, k + 1, hj, hk, hjk =>
          simp only [List.getElem_cons_succ]
          exact ihPair j k (by simpa using Nat.lt_of_succ_lt_succ hj)
            (by simpa using Nat.lt_of_succ_lt_succ hk) (by omega)
    · constructor
      · intro j hj
        simp only [if_neg hnz] at hj ⊢
        rw [andNot_eq_zero_iff]
        intro i hwi
        simp only [Nat.testBit_or]
        have := (andNot_eq_zero_iff).mp (ihOwn j hj) i hwi
        simp [this]
      · intro j k hj hk hjk
        simp only [if_neg hnz] at hj hk ⊢
        exact ihPair j k hj hk hjk
  | finish i hi mask hown =>
    have hmasksub : ∀ j, mask.testBit j = true →
        (s.workers[i]).testBit j = true := by
      intro j hj
      have := congrArg (fun n => n.testBit j) hown
      simp only [Nat.testBit_and] at this
      rw [hj] at this
      simpa using this.symm
    have hsubNew : ∀ j, (andNot s.workers[i] mask).testBit j = true →
        (s.workers[i]).testBit j = true := by
      intro j hj
      rw [testBit_andNot, Bool.and_eq_true] at hj
      exact hj.1
    constructor
    · intro j hj
      simp only [List.length_set] at hj
      simp only
      rw [List.getElem_set]
      rw [andNot_eq_zero_iff]
      intro b hb
      rw [testBit_andNot, Bool.and_eq_true]
      by_cases hij : i = j
      · simp only [if_pos hij] at hb
        rw [testBit_andNot, Bool.and_eq_true] at hb
        exact ⟨(andNot_eq_zero_iff).mp (ihOwn i hi) b hb.1, hb.2⟩
      · simp only [if_neg hij] at hb
        refine ⟨(andNot_eq_zero_iff).mp (ihOwn j hj) b hb, ?_⟩
        -- workers j and i are disjoint, and mask is owned by worker i
        rcases hmb : mask.testBit b with _ | _
        · simp
        · exfalso
          have hdis := ihPair j i hj hi (fun hh => hij hh.symm)
          rw [and_eq_zero_iff'] at hdis
          rcases hdis b with h1 | h1
          · rw [hb] at h1; exact absurd h1 (by simp)
          · rw [hmasksub b hmb] at h1; exact absurd h1 (by simp)
    · intro j k hj hk hjk
      simp only [List.length_set] at hj hk
      simp only
      rw [List.getElem_set, List.getElem_set]
      by_cases hij : i = j
      · subst hij
        simp only [if_pos rfl, if_neg hjk]
        exact and_eq_zero_of_sub hsubNew (ihPair i k hi hk hjk)
      · by_cases hik : i = k
        · subst hik
          simp only [if_neg hij, if_pos rfl]
          exact and_eq_zero_of_sub_right hsubNew (ihPair j i hj hi hjk)
        · simp only [if_neg hij, if_neg hik]
          exact ihPair j k hj hk hjk

/-- Every reachable dispatch state satisfies the invariant. -/
theorem dinv_of_reachable (s : DispatchState) (h : DReachable s) : DInv s := by
  induction h with
  | refl => exact ⟨by intro j hj; simp at hj, by intro j k hj hk; simp at hj⟩
  | tail _hab hstep ih => exact dinv_step hstep ih

/-- C7: the dispatcher enqueues a thread-pool closure only for the event
bits its atomic test-and-set of `being_processed_by_pool` did not already
own; consequently, in every reachable state of the dispatch step
relation, the masks held by in-flight closures are pairwise disjoint and
in particular no direction (`EPOLLIN` or `EPOLLOUT`) of the device is
being handled by two workers concurrently. -/
theorem no_double_dispatch_per_direction (s : DispatchState)
    (h : DReachable s) :
    s.workers.Pairwise (fun a b => a &&& b = 0) ∧
    (∀ j k, (hj : j < s.workers.length) → (hk : k < s.workers.length) →
      j ≠ k → ∀ d, d = EPOLLIN ∨ d = EPOLLOUT →
        ¬(s.workers[j] &&& d ≠ 0 ∧ s.workers[k] &&& d ≠ 0)) := by
  obtain ⟨_hOwn, hPair⟩ := dinv_of_reachable s h
  constructor
  · rw [List.pairwise_iff_getElem]
    intro j k hj hk hjk
    exact hPair j k hj hk (by omega)
  · intro j k hj hk hjk d hd
    rintro ⟨hjd, hkd⟩
    have hdpow : ∃ i, d = 2 ^ i := by
      rcases hd with rfl | rfl
      · exact ⟨0, rfl⟩
      · exact ⟨2, rfl⟩
    obtain ⟨i, rfl⟩ := hdpow
    have hbj : (s.workers[j]).testBit i = true :=
      testBit_of_and_two_pow_ne_zero hjd
    have hbk : (s.workers[k]).testBit i = true :=
      testBit_of_and_two_pow_ne_zero hkd
    have hdis := hPair j k hj hk hjk
    rw [and_eq_zero_iff'] at hdis
    rcases hdis i with h1 | h1
    · rw [hbj] at h1; exact absurd h1 (by simp)
    · rw [hbk] at h1; exact absurd h1 (by simp)

theorem no_double_dispatch_witness :
    DReachable ⟨5, [5]⟩ ∧
      ([5] : List Nat).Pairwise (fun a b => a &&& b = 0) :=
  have h5 : andNot 5 0 = 5 := by
    rw [andNot, Nat.bitwise_zero_right]
    simp
  have hstate :
      ({ being_processed_by_pool := 0 ||| 5
         workers := if andNot 5 0 ≠ 0 then [andNot 5 0] else [] } :
        DispatchState) = ⟨5, [5]⟩ := by
    rw [h5]
    simp
  have hreach : DReachable ⟨5, [5]⟩ :=
    hstate ▸ Relation.ReflTransGen.single (DStep.dispatch ⟨0, []⟩ 5)
  ⟨hreach, (no_double_dispatch_per_direction ⟨5, [5]⟩ hreach).1⟩

theorem start_if_stop_if_witness :
    (({ cached := .fWasTrue, reeval := .fWasFalse } : FuzzyCondition).cached
        = .fWasTrue) ∧
    (is_momentary_false
        ({ cached := .fWasTrue, reeval := .fWasFalse } : FuzzyCondition).reeval
      = true) ∧
    start_if ⟨false, false, false, false, false, 0, 0, false⟩
        ⟨.fWasTrue, .fWasFalse⟩ =
      (⟨false, false, false, false, false, 0, 0, false⟩, false) :=
  ⟨rfl, rfl,
    (start_if_stop_if_failed_retest_atomic
        ⟨false, false, false, false, false, 0, 0, false⟩
        ⟨.fWasTrue, .fWasFalse⟩ rfl rfl).1 (by decide) (by decide)⟩

end Evio
